import Mathlib

/-!
# Verification of the gorogoro-shogi rules engine

A shallow embedding of the Go sources of the gorogoro_shogi repository
(package `game`: game.go, random_engine.go, mcts_engine.go, scoring.go,
the alpha-beta engine and the TD-UCB engine) together with proofs about
the embedded definitions.

Modelling conventions, chosen once and used throughout:

* Go `int` is modelled as `Int`; Go's fixed 6x5 board array is modelled as a
  total function `Coord → Piece` (the code never indexes out of bounds, every
  access is guarded by `insideBoard`).
* A Go `map[PieceType]int` is modelled as `PieceType → Option Int`: `none`
  means the key is absent, `some v` means the key is present with value `v`.
  Lookup of an absent key yields 0 (`Option.getD 0`), exactly like Go; the
  statement `m[k] += d` inserts the key, exactly like Go.  This distinction is
  observable in Go (`for k := range m` iterates present keys, including those
  whose value is 0) and is load-bearing for several claims.
* Go map iteration order is unspecified; the embedding iterates piece kinds in
  the fixed order King, Gold, Silver, Pawn.  Every claim settled below is
  either insensitive to this order or is witnessed on states whose hands make
  the order irrelevant.
* `float64` values of the learning engines are modelled as exact rationals
  (`Rat`); the transcendental UCB exploration bonus (sqrt/log) is taken as an
  arbitrary function parameter, and the theorems quantify over it, because no
  claim below depends on the numeric value of the bonus.
* Randomness (`math/rand`) is modelled by explicit streams of naturals; an
  `rng.Intn n` draw takes the next stream element modulo `n`, and theorems
  quantify over all streams.
-/

set_option maxRecDepth 8192

namespace Gorogoro

/-- The two players, `game.Player` (Bottom moves up, Top moves down). -/
inductive Player
  | Bottom
  | Top
deriving DecidableEq, Repr

/-- `Player.Opponent` from game.go. -/
def Player.Opponent : Player → Player
  | .Bottom => .Top
  | .Top => .Bottom

/-- The four piece kinds, `game.PieceType`. -/
inductive PieceType
  | King
  | Gold
  | Silver
  | Pawn
deriving DecidableEq, Repr

/-- `game.Piece`.  The Go zero value `Piece{}` is `emptyPiece` below. -/
structure Piece where
  kind : PieceType
  owner : Player
  promoted : Bool
  present : Bool
deriving DecidableEq, Repr

/-- The Go zero value `Piece{}` used for empty cells. -/
def emptyPiece : Piece := ⟨.King, .Bottom, false, false⟩

/-- `game.Coord`; fields are Go ints and may lie off the board. -/
structure Coord where
  x : Int
  y : Int
deriving DecidableEq, Repr

/-- `game.BoardRows`. -/
def BoardRows : Int := 6

/-- `game.BoardCols`. -/
def BoardCols : Int := 5

/-- The board `[BoardRows][BoardCols]Piece`, as a total function. -/
def Board := Coord → Piece

/-- Read a board cell (`state.Board[c.Y][c.X]`). -/
def getCell (b : Board) (c : Coord) : Piece := b c

/-- Write a board cell (`state.Board[c.Y][c.X] = p`). -/
def setCell (b : Board) (c : Coord) (p : Piece) : Board :=
  fun c' => if c' = c then p else b c'

/-- `game.Move`.  In Go, `From` and `Drop` are nullable pointers; exactly one
of them is set for every move the code constructs. -/
structure Move where
  mfrom : Option Coord
  mto : Coord
  mdrop : Option PieceType
  promote : Bool
deriving DecidableEq, Repr

/-- `game.GameState`: board, one hand map per player, side to move. -/
structure GameState where
  board : Board
  hands : Player → PieceType → Option Int
  turn : Player

/-- Hand lookup, Go `state.Hands[q][k]` (an absent key reads as 0). -/
def handCount (s : GameState) (q : Player) (k : PieceType) : Int :=
  (s.hands q k).getD 0

/-- Go `m[k] += d` on a hand map: inserts the key if it was absent. -/
def handAdd (h : PieceType → Option Int) (k : PieceType) (d : Int) :
    PieceType → Option Int :=
  fun k' => if k' = k then some ((h k).getD 0 + d) else h k'

/-- Go `state.Hands[q][k] += d`. -/
def addToHand (s : GameState) (q : Player) (k : PieceType) (d : Int) : GameState :=
  { s with hands := fun q' => if q' = q then handAdd (s.hands q) k d else s.hands q' }

/-- `game.handDelta`. -/
structure HandDelta where
  player : Player
  piece : PieceType
  delta : Int
deriving DecidableEq, Repr

/-- `game.moveDiff`.  Unset fields carry the Go zero values. -/
structure MoveDiff where
  hasFrom : Bool
  dfrom : Coord
  fromBefore : Piece
  dto : Coord
  toBefore : Piece
  handChange : HandDelta
  hasHand : Bool
deriving Repr

/-- `game.applyMoveInPlace`: mutates board and hands, returns the diff.  The
embedding passes the state explicitly instead of mutating it. -/
def applyMoveInPlaceS (s : GameState) (m : Move) (p : Player) : MoveDiff × GameState :=
  let toBefore := getCell s.board m.mto
  match m.mdrop with
  | some k =>
    (({ hasFrom := false, dfrom := ⟨0, 0⟩, fromBefore := emptyPiece,
        dto := m.mto, toBefore := toBefore,
        handChange := ⟨p, k, -1⟩, hasHand := true } : MoveDiff),
      let s1 := addToHand s p k (-1)
      { s1 with board := setCell s1.board m.mto ⟨k, p, false, true⟩ })
  | none =>
    match m.mfrom with
    | none =>
      (({ hasFrom := false, dfrom := ⟨0, 0⟩, fromBefore := emptyPiece,
          dto := m.mto, toBefore := toBefore,
          handChange := ⟨.Bottom, .King, 0⟩, hasHand := false } : MoveDiff), s)
    | some f =>
      let fromBefore := getCell s.board f
      let captured := toBefore.present
      let sClear := { s with board := setCell s.board f emptyPiece }
      let sCap := if captured then addToHand sClear p toBefore.kind 1 else sClear
      let moving : Piece :=
        { fromBefore with promoted := fromBefore.promoted || m.promote, present := true }
      (({ hasFrom := true, dfrom := f, fromBefore := fromBefore,
          dto := m.mto, toBefore := toBefore,
          handChange := if captured then ⟨p, toBefore.kind, 1⟩ else ⟨.Bottom, .King, 0⟩,
          hasHand := captured } : MoveDiff),
        { sCap with board := setCell sCap.board m.mto moving })

/-- `game.undoMove`. -/
def undoMove (s : GameState) (d : MoveDiff) : GameState :=
  let s1 := { s with board := setCell s.board d.dto d.toBefore }
  let s2 := if d.hasFrom then { s1 with board := setCell s1.board d.dfrom d.fromBefore } else s1
  if d.hasHand then addToHand s2 d.handChange.player d.handChange.piece (-d.handChange.delta)
  else s2

/-- `game.ApplyMove` (applies for the side to move; does not flip the turn).
Go dereferences a nil `From` pointer when given a move with neither a source
nor a drop; the embedding returns the state unchanged in that (unreachable
for well-formed moves) case. -/
def ApplyMove (s : GameState) (m : Move) : GameState :=
  let player := s.turn
  match m.mdrop with
  | some k =>
    let s1 := addToHand s player k (-1)
    { s1 with board := setCell s1.board m.mto ⟨k, player, false, true⟩ }
  | none =>
    match m.mfrom with
    | none => s
    | some f =>
      let fromPiece := getCell s.board f
      let target := getCell s.board m.mto
      let s1 := if target.present then addToHand s player target.kind 1 else s
      let s2 := { s1 with board := setCell s1.board f emptyPiece }
      let moving : Piece :=
        { fromPiece with promoted := fromPiece.promoted || m.promote, present := true }
      { s2 with board := setCell s2.board m.mto moving }

/-- `game.CloneState`: copies the hand maps entry by entry.  In the
functional model this reproduces the same state. -/
def CloneState (s : GameState) : GameState :=
  { board := s.board, hands := fun q k => s.hands q k, turn := s.turn }

theorem cloneState_eq (s : GameState) : CloneState s = s := rfl

section ApplyUndo

@[simp] theorem handAdd_same (h : PieceType → Option Int) (k : PieceType) (d : Int) :
    handAdd h k d k = some ((h k).getD 0 + d) := by
  simp [handAdd]

@[simp] theorem handAdd_other (h : PieceType → Option Int) (k k' : PieceType) (d : Int)
    (hne : k' ≠ k) : handAdd h k d k' = h k' := by
  simp [handAdd, hne]

theorem addToHand_turn (s : GameState) (q : Player) (k : PieceType) (d : Int) :
    (addToHand s q k d).turn = s.turn := rfl

theorem addToHand_board (s : GameState) (q : Player) (k : PieceType) (d : Int) :
    (addToHand s q k d).board = s.board := rfl

theorem applyMoveInPlaceS_turn (s : GameState) (m : Move) (p : Player) :
    (applyMoveInPlaceS s m p).2.turn = s.turn := by
  unfold applyMoveInPlaceS
  cases m.mdrop <;> cases m.mfrom <;> simp [addToHand] <;> split <;> rfl

theorem undoMove_turn (s : GameState) (d : MoveDiff) :
    (undoMove s d).turn = s.turn := by
  unfold undoMove
  cases d.hasFrom <;> cases d.hasHand <;> simp [addToHand]

/-- Undoing an in-place apply restores every board cell exactly. -/
theorem undo_apply_board (s : GameState) (m : Move) (p : Player) :
    (undoMove (applyMoveInPlaceS s m p).2 (applyMoveInPlaceS s m p).1).board = s.board := by
  funext c
  unfold applyMoveInPlaceS undoMove
  cases hd : m.mdrop with
  | some k =>
    simp only [addToHand, getCell]
    by_cases h1 : c = m.mto <;> simp [setCell, h1]
  | none =>
    cases hf : m.mfrom with
    | none =>
      by_cases h1 : c = m.mto <;> simp [setCell, getCell, h1]
    | some f =>
      by_cases hcap : (getCell s.board m.mto).present <;>
        by_cases h1 : c = f <;> by_cases h2 : c = m.mto <;>
        simp_all [addToHand, setCell, getCell]

/-- Undoing an in-place apply restores every hand count (absent keys read
as 0, so a key created with count 0 still restores the count). -/
theorem undo_apply_count (s : GameState) (m : Move) (p : Player) (q : Player) (k : PieceType) :
    handCount (undoMove (applyMoveInPlaceS s m p).2 (applyMoveInPlaceS s m p).1) q k =
      handCount s q k := by
  unfold applyMoveInPlaceS undoMove handCount
  cases hd : m.mdrop with
  | some kd =>
    by_cases h1 : q = p <;> by_cases h2 : k = kd <;>
      simp [addToHand, h1, h2]
  | none =>
    cases hf : m.mfrom with
    | none => simp
    | some f =>
      by_cases hcap : (getCell s.board m.mto).present
      · by_cases h1 : q = p <;> by_cases h2 : k = (getCell s.board m.mto).kind <;>
          simp [addToHand, hcap, h1, h2]
      · simp [hcap]

/-- The precise effect of apply-then-undo on the hand maps: each entry is
either exactly restored, or was absent before and is a zero-count entry
afterwards (the captured kind of a capturing move). -/
theorem undo_apply_hand_cases (s : GameState) (m : Move) (p : Player)
    (q : Player) (k : PieceType) :
    (undoMove (applyMoveInPlaceS s m p).2 (applyMoveInPlaceS s m p).1).hands q k =
        s.hands q k ∨
      (s.hands q k = none ∧
        (undoMove (applyMoveInPlaceS s m p).2 (applyMoveInPlaceS s m p).1).hands q k =
          some 0) := by
  unfold applyMoveInPlaceS undoMove
  cases hd : m.mdrop with
  | some kd =>
    by_cases h1 : q = p <;> by_cases h2 : k = kd <;>
      simp [addToHand, h1, h2]
    cases hv : s.hands p kd with
    | none => right; simp
    | some v => left; simp
  | none =>
    cases hf : m.mfrom with
    | none => simp
    | some f =>
      by_cases hcap : (getCell s.board m.mto).present
      · by_cases h1 : q = p <;> by_cases h2 : k = (getCell s.board m.mto).kind <;>
          simp [addToHand, hcap, h1, h2]
        cases hv : s.hands p (getCell s.board m.mto).kind with
        | none => right; simp
        | some v => left; simp
      · simp [hcap]

end ApplyUndo

/-! ## Movement rules and check detection (game.go) -/

/-- The board scan order used by every `for y … for x …` loop in game.go:
row-major, `y` from 0 to 5 outer, `x` from 0 to 4 inner. -/
def coordList : List Coord :=
  (List.range 6).flatMap fun y => (List.range 5).map fun x => ⟨(x : Int), (y : Int)⟩

/-- `game.insideBoard`. -/
def insideBoard (c : Coord) : Bool :=
  0 ≤ c.x && c.x < BoardCols && 0 ≤ c.y && c.y < BoardRows

def kingOffsets : List Coord :=
  [⟨-1, -1⟩, ⟨0, -1⟩, ⟨1, -1⟩, ⟨-1, 0⟩, ⟨1, 0⟩, ⟨-1, 1⟩, ⟨0, 1⟩, ⟨1, 1⟩]

def goldOffsetsBottom : List Coord :=
  [⟨-1, 1⟩, ⟨0, 1⟩, ⟨1, 1⟩, ⟨-1, 0⟩, ⟨1, 0⟩, ⟨0, -1⟩]

def goldOffsetsTop : List Coord :=
  [⟨-1, -1⟩, ⟨0, -1⟩, ⟨1, -1⟩, ⟨-1, 0⟩, ⟨1, 0⟩, ⟨0, 1⟩]

def silverOffsetsBottom : List Coord :=
  [⟨-1, 1⟩, ⟨0, 1⟩, ⟨1, 1⟩, ⟨-1, -1⟩, ⟨1, -1⟩]

def silverOffsetsTop : List Coord :=
  [⟨-1, -1⟩, ⟨0, -1⟩, ⟨1, -1⟩, ⟨-1, 1⟩, ⟨1, 1⟩]

def pawnOffsetsBottom : List Coord := [⟨0, 1⟩]

def pawnOffsetsTop : List Coord := [⟨0, -1⟩]

/-- `game.movementOffsets`. -/
def movementOffsets (p : Piece) : List Coord :=
  if p.kind = .King then kingOffsets
  else if p.kind = .Gold ∨ p.promoted then
    if p.owner = .Bottom then goldOffsetsBottom else goldOffsetsTop
  else if p.kind = .Silver then
    if p.owner = .Bottom then silverOffsetsBottom else silverOffsetsTop
  else if p.kind = .Pawn then
    if p.owner = .Bottom then pawnOffsetsBottom else pawnOffsetsTop
  else []

/-- `game.promotionZoneFor`: inclusive Y bounds of the far two ranks. -/
def promotionZoneFor (player : Player) : Int × Int :=
  if player = .Bottom then (BoardRows - 2, BoardRows - 1) else (0, 1)

/-- `game.canPromote`: decided by the destination rank only. -/
def canPromote (p : Piece) (destY : Int) : Bool :=
  if p.promoted then false
  else if p.kind ≠ .Silver ∧ p.kind ≠ .Pawn then false
  else
    let z := promotionZoneFor p.owner
    decide (z.1 ≤ destY) && decide (destY ≤ z.2)

/-- `game.pieceHasBoardReach`. -/
def pieceHasBoardReach (piece : Piece) (pos : Coord) : Bool :=
  piece.present && (movementOffsets piece).any fun delta =>
    insideBoard ⟨pos.x + delta.x, pos.y + delta.y⟩

/-- `game.columnHasUnpromotedPawn` (reads only the board). -/
def columnHasUnpromotedPawn (b : Board) (player : Player) (column : Int) : Bool :=
  (List.range 6).any fun y =>
    let p := getCell b ⟨column, (y : Int)⟩
    p.present && (p.owner = player && p.kind = .Pawn && !p.promoted)

/-- The cell predicate scanned by `game.findKing`. -/
def kingPred (b : Board) (player : Player) (c : Coord) : Bool :=
  let p := getCell b c
  p.present && p.owner = player && p.kind = .King

/-- Board-level body of `game.findKing` (the function reads only the board). -/
def findKingB (b : Board) (player : Player) : Coord × Bool :=
  match coordList.find? (kingPred b player) with
  | some c => (c, true)
  | none => (⟨0, 0⟩, false)

/-- `game.findKing`: first cell in scan order holding the player's king,
paired with a found flag (Go returns `Coord{}, false` when absent). -/
def findKing (s : GameState) (player : Player) : Coord × Bool :=
  findKingB s.board player

/-- `game.isKingThreatened`: some opposing piece's raw movement pattern
reaches the given cell. -/
def isKingThreatened (b : Board) (player : Player) (kingPos : Coord) : Bool :=
  let opponent := player.Opponent
  coordList.any fun c =>
    let p := getCell b c
    p.present && p.owner = opponent &&
      (movementOffsets p).any fun delta =>
        let tc : Coord := ⟨c.x + delta.x, c.y + delta.y⟩
        insideBoard tc && tc = kingPos

/-- `game.InCheck`. -/
def InCheck (s : GameState) (player : Player) : Bool :=
  let kf := findKing s player
  if kf.2 then isKingThreatened s.board player kf.1 else false

/-- `game.kingPositionAfterDiff`. -/
def kingPositionAfterDiff (player : Player) (diff : MoveDiff)
    (kingPos : Coord) (kingFound : Bool) : Coord × Bool :=
  if diff.hasFrom && diff.fromBefore.owner = player && diff.fromBefore.kind = .King then
    (diff.dto, true)
  else (kingPos, kingFound)

/-- `game.playerInCheckAfterAppliedMove` (reads the already-mutated state). -/
def playerInCheckAfterAppliedMove (s : GameState) (player : Player) (diff : MoveDiff)
    (kingPos : Coord) (kingFound : Bool) : Bool :=
  let nk := kingPositionAfterDiff player diff kingPos kingFound
  if nk.2 then isKingThreatened s.board player nk.1 else false

/-! ## Legal move generation (game.go) -/

/-- The apply / filter / undo step shared verbatim by the candidate loops of
`appendLegalMovesForPiece` and `appendLegalDrops`. -/
def tryCandidate (player : Player) (kingPos : Coord) (kingFound : Bool)
    (acc : List Move × GameState) (m : Move) : List Move × GameState :=
  let d := applyMoveInPlaceS acc.2 m player
  let inCheck := playerInCheckAfterAppliedMove d.2 player d.1 kingPos kingFound
  let keep := !inCheck && pieceHasBoardReach (getCell d.2.board m.mto) m.mto
  let st2 := undoMove d.2 d.1
  ((if keep then acc.1 ++ [m] else acc.1), st2)

/-- One step of the candidate loop of `appendLegalMovesForPiece`: skip the
destination if off the board or holding an own piece, otherwise try every
applicable promotion variant (the move owner is the piece owner, as in Go). -/
def pieceLoopBody (mfrom : Coord) (piece : Piece) (kingPos : Coord) (kingFound : Bool)
    (acc : List Move × GameState) (delta : Coord) : List Move × GameState :=
  let tc : Coord := ⟨mfrom.x + delta.x, mfrom.y + delta.y⟩
  if !insideBoard tc then acc
  else
    let dest := getCell acc.2.board tc
    if dest.present && dest.owner = piece.owner then acc
    else
      let opts := if canPromote piece tc.y then [false, true] else [false]
      opts.foldl (fun acc2 promote =>
        tryCandidate piece.owner kingPos kingFound acc2 ⟨some mfrom, tc, none, promote⟩) acc

/-- `game.appendLegalMovesForPiece` (the state is threaded explicitly in
place of Go's pointer mutation). -/
def appendLegalMovesForPiece (s : GameState) (mfrom : Coord) (piece : Piece)
    (kingPos : Coord) (kingFound : Bool) (moves : List Move) : List Move × GameState :=
  (movementOffsets piece).foldl (pieceLoopBody mfrom piece kingPos kingFound) (moves, s)

/-- One step of the cell loop of `appendLegalDrops`. -/
def dropLoopBody (player : Player) (pieceKind : PieceType) (blocked : Int → Bool)
    (kingPos : Coord) (kingFound : Bool)
    (acc : List Move × GameState) (c : Coord) : List Move × GameState :=
  if (getCell acc.2.board c).present || blocked c.x then acc
  else tryCandidate player kingPos kingFound acc ⟨none, c, some pieceKind, false⟩

/-- `game.appendLegalDrops`.  The nifu column mask is computed from the state
at entry, exactly as in Go. -/
def appendLegalDrops (s : GameState) (player : Player) (pieceKind : PieceType)
    (kingPos : Coord) (kingFound : Bool) (moves : List Move) : List Move × GameState :=
  let blocked : Int → Bool := fun x =>
    pieceKind = .Pawn && columnHasUnpromotedPawn s.board player x
  coordList.foldl (dropLoopBody player pieceKind blocked kingPos kingFound) (moves, s)

/-- The fixed stand-in for Go's unspecified map-key iteration order. -/
def pieceTypeList : List PieceType := [.King, .Gold, .Silver, .Pawn]

/-- One step of the board scan of `GenerateLegalMoves`: pieces of the given
player contribute their candidate moves. -/
def genPieceLoopBody (player : Player) (kingPos : Coord) (kingFound : Bool)
    (acc : List Move × GameState) (c : Coord) : List Move × GameState :=
  let piece := getCell acc.2.board c
  if piece.present && piece.owner = player then
    appendLegalMovesForPiece acc.2 c piece kingPos kingFound acc.1
  else acc

/-- One step of the drop-kind loop of `GenerateLegalMoves`. -/
def genDropLoopBody (player : Player) (kingPos : Coord) (kingFound : Bool)
    (acc : List Move × GameState) (k : PieceType) : List Move × GameState :=
  appendLegalDrops acc.2 player k kingPos kingFound acc.1

/-- `game.GenerateLegalMoves`, with the final threaded state kept: the Go
function receives the state by value but shares the hand maps with the
caller, so the second component's hands are what the caller observes after
the call.  The drop loop ranges over the keys present in the mover's hand
map at that point, whatever their count. -/
def generateLegalMovesFull (s : GameState) (player : Player) : List Move × GameState :=
  let kf := findKing s player
  let acc1 := coordList.foldl (genPieceLoopBody player kf.1 kf.2) ([], s)
  let kinds := pieceTypeList.filter fun k => (acc1.2.hands player k).isSome
  kinds.foldl (genDropLoopBody player kf.1 kf.2) acc1

/-- The list of legal moves returned to the caller. -/
def GenerateLegalMoves (s : GameState) (player : Player) : List Move :=
  (generateLegalMovesFull s player).1

/-- `game.GenerateLegalMovesFrom`. -/
def GenerateLegalMovesFrom (s : GameState) (player : Player) (mfrom : Coord) : List Move :=
  if !insideBoard mfrom then []
  else
    let piece := getCell s.board mfrom
    if !(piece.present && piece.owner = player) then []
    else
      let kf := findKing s player
      (appendLegalMovesForPiece s mfrom piece kf.1 kf.2 []).1

/-- `game.GenerateLegalDrops` (note: unlike the drop loop inside
`GenerateLegalMoves`, this checks the hand count). -/
def GenerateLegalDrops (s : GameState) (player : Player) (pieceKind : PieceType) : List Move :=
  if handCount s player pieceKind = 0 then []
  else
    let kf := findKing s player
    (appendLegalDrops s player pieceKind kf.1 kf.2 []).1

/-- `game.NewGame`: the initial position. -/
def NewGame : GameState :=
  let b0 : Board := fun _ => emptyPiece
  let placeMajor : Board → Int → Player → Board := fun b y owner =>
    setCell (setCell (setCell (setCell (setCell b ⟨0, y⟩ ⟨.Silver, owner, false, true⟩)
      ⟨1, y⟩ ⟨.Gold, owner, false, true⟩) ⟨2, y⟩ ⟨.King, owner, false, true⟩)
      ⟨3, y⟩ ⟨.Gold, owner, false, true⟩) ⟨4, y⟩ ⟨.Silver, owner, false, true⟩
  let placePawns : Board → Int → Player → Board := fun b y owner =>
    setCell (setCell (setCell b ⟨1, y⟩ ⟨.Pawn, owner, false, true⟩)
      ⟨2, y⟩ ⟨.Pawn, owner, false, true⟩) ⟨3, y⟩ ⟨.Pawn, owner, false, true⟩
  { board := placeMajor (placePawns (placePawns (placeMajor b0 0 .Bottom) 2 .Bottom) 3 .Top) 5 .Top,
    hands := fun _ _ => none,
    turn := .Bottom }

/-! ## Pure characterization of the generation loops

The candidate filter of the generation loops reads only the board (never the
hands), and each apply is undone before the next candidate is examined.  The
following pure functions compute the same move lists directly from the board
of the entry state; the lemmas that follow prove the agreement. -/

/-- The board after a move, as computed by both `ApplyMove` and
`applyMoveInPlace` (their board effects coincide). -/
def boardApplyMove (b : Board) (m : Move) (p : Player) : Board :=
  match m.mdrop with
  | some k => setCell b m.mto ⟨k, p, false, true⟩
  | none =>
    match m.mfrom with
    | none => b
    | some f =>
      setCell (setCell b f emptyPiece) m.mto
        { getCell b f with promoted := (getCell b f).promoted || m.promote, present := true }

/-- The diff returned by `applyMoveInPlace`, computed from the board alone. -/
def diffFor (b : Board) (m : Move) (p : Player) : MoveDiff :=
  let toBefore := getCell b m.mto
  match m.mdrop with
  | some k =>
    { hasFrom := false, dfrom := ⟨0, 0⟩, fromBefore := emptyPiece,
      dto := m.mto, toBefore := toBefore,
      handChange := ⟨p, k, -1⟩, hasHand := true }
  | none =>
    match m.mfrom with
    | none =>
      { hasFrom := false, dfrom := ⟨0, 0⟩, fromBefore := emptyPiece,
        dto := m.mto, toBefore := toBefore,
        handChange := ⟨.Bottom, .King, 0⟩, hasHand := false }
    | some f =>
      { hasFrom := true, dfrom := f, fromBefore := getCell b f,
        dto := m.mto, toBefore := toBefore,
        handChange := if toBefore.present then ⟨p, toBefore.kind, 1⟩ else ⟨.Bottom, .King, 0⟩,
        hasHand := toBefore.present }

theorem applyInPlace_board (s : GameState) (m : Move) (p : Player) :
    (applyMoveInPlaceS s m p).2.board = boardApplyMove s.board m p := by
  unfold applyMoveInPlaceS boardApplyMove
  cases m.mdrop <;> cases m.mfrom <;> simp [addToHand] <;> split <;> rfl

theorem applyInPlace_diff (s : GameState) (m : Move) (p : Player) :
    (applyMoveInPlaceS s m p).1 = diffFor s.board m p := by
  unfold applyMoveInPlaceS diffFor
  cases m.mdrop <;> cases m.mfrom <;> simp

theorem applyMove_board (s : GameState) (m : Move) :
    (ApplyMove s m).board = boardApplyMove s.board m s.turn := by
  unfold ApplyMove boardApplyMove
  cases m.mdrop <;> cases m.mfrom <;> simp [addToHand] <;> split <;> rfl

/-- The candidate filter of the generation loops, as a pure predicate on the
board of the entry state. -/
def candOK (b : Board) (player : Player) (kingPos : Coord) (kingFound : Bool) (m : Move) : Bool :=
  let b1 := boardApplyMove b m player
  let d := diffFor b m player
  let nk := kingPositionAfterDiff player d kingPos kingFound
  let inCheck := if nk.2 then isKingThreatened b1 player nk.1 else false
  !inCheck && pieceHasBoardReach (getCell b1 m.mto) m.mto

theorem tryCandidate_moves (player : Player) (kp : Coord) (kf : Bool)
    (acc : List Move × GameState) (m : Move) :
    (tryCandidate player kp kf acc m).1 =
      if candOK acc.2.board player kp kf m then acc.1 ++ [m] else acc.1 := by
  simp only [tryCandidate, candOK, playerInCheckAfterAppliedMove,
    applyInPlace_board, applyInPlace_diff]

theorem tryCandidate_board (player : Player) (kp : Coord) (kf : Bool)
    (acc : List Move × GameState) (m : Move) :
    (tryCandidate player kp kf acc m).2.board = acc.2.board := by
  unfold tryCandidate
  exact undo_apply_board acc.2 m player

theorem tryCandidate_count (player : Player) (kp : Coord) (kf : Bool)
    (acc : List Move × GameState) (m : Move) (q : Player) (k : PieceType) :
    handCount (tryCandidate player kp kf acc m).2 q k = handCount acc.2 q k := by
  unfold tryCandidate
  exact undo_apply_count acc.2 m player q k

theorem tryCandidate_turn (player : Player) (kp : Coord) (kf : Bool)
    (acc : List Move × GameState) (m : Move) :
    (tryCandidate player kp kf acc m).2.turn = acc.2.turn := by
  unfold tryCandidate
  rw [undoMove_turn, applyMoveInPlaceS_turn]

/-- Pure form of the candidate loop body of `appendLegalMovesForPiece`,
parameterized by the offset list. -/
def legalMovesForPieceAux (b : Board) (mfrom : Coord) (piece : Piece)
    (kp : Coord) (kf : Bool) (offs : List Coord) : List Move :=
  offs.flatMap fun delta =>
    let tc : Coord := ⟨mfrom.x + delta.x, mfrom.y + delta.y⟩
    if !insideBoard tc then []
    else
      let dest := getCell b tc
      if dest.present && dest.owner = piece.owner then []
      else
        let opts := if canPromote piece tc.y then [false, true] else [false]
        opts.flatMap fun promote =>
          let m : Move := ⟨some mfrom, tc, none, promote⟩
          if candOK b piece.owner kp kf m then [m] else []

/-- The moves contributed by one piece, computed purely from the board. -/
def legalMovesForPiece (b : Board) (mfrom : Coord) (piece : Piece)
    (kp : Coord) (kf : Bool) : List Move :=
  legalMovesForPieceAux b mfrom piece kp kf (movementOffsets piece)

/-- Pure form of the candidate loop body of `appendLegalDrops`,
parameterized by the list of cells scanned. -/
def legalDropsAux (b : Board) (player : Player) (k : PieceType)
    (kp : Coord) (kf : Bool) (cells : List Coord) : List Move :=
  cells.flatMap fun c =>
    if (getCell b c).present || (k = .Pawn && columnHasUnpromotedPawn b player c.x) then []
    else
      let m : Move := ⟨none, c, some k, false⟩
      if candOK b player kp kf m then [m] else []

/-- The drops contributed by one piece kind, computed purely from the board. -/
def legalDropsPure (b : Board) (player : Player) (k : PieceType)
    (kp : Coord) (kf : Bool) : List Move :=
  legalDropsAux b player k kp kf coordList

theorem optsFold_spec (player : Player) (kp : Coord) (kf : Bool) (mk : Bool → Move) :
    ∀ (opts : List Bool) (acc : List Move × GameState),
      (opts.foldl (fun a pr => tryCandidate player kp kf a (mk pr)) acc).1 =
          acc.1 ++ opts.flatMap (fun pr =>
            if candOK acc.2.board player kp kf (mk pr) then [mk pr] else []) ∧
      (opts.foldl (fun a pr => tryCandidate player kp kf a (mk pr)) acc).2.board =
          acc.2.board ∧
      (∀ q k, handCount (opts.foldl
            (fun a pr => tryCandidate player kp kf a (mk pr)) acc).2 q k =
          handCount acc.2 q k) ∧
      (opts.foldl (fun a pr => tryCandidate player kp kf a (mk pr)) acc).2.turn =
          acc.2.turn := by
  intro opts
  induction opts with
  | nil => intro acc; simp
  | cons pr rest ih =>
    intro acc
    obtain ⟨h1, h2, h3, h4⟩ := ih (tryCandidate player kp kf acc (mk pr))
    refine ⟨?_, ?_, ?_, ?_⟩
    · rw [List.foldl_cons, h1, tryCandidate_moves, tryCandidate_board]
      by_cases hc : candOK acc.2.board player kp kf (mk pr) <;> simp [hc]
    · rw [List.foldl_cons, h2, tryCandidate_board]
    · intro q k; rw [List.foldl_cons, h3, tryCandidate_count]
    · rw [List.foldl_cons, h4, tryCandidate_turn]

/-- One step of the per-piece candidate loop agrees with its pure
characterization and preserves board, hand counts and turn. -/
theorem pieceLoopBody_spec (mfrom : Coord) (piece : Piece) (kp : Coord) (kf : Bool)
    (acc : List Move × GameState) (delta : Coord) :
    (pieceLoopBody mfrom piece kp kf acc delta).1 =
        acc.1 ++ legalMovesForPieceAux acc.2.board mfrom piece kp kf [delta] ∧
    (pieceLoopBody mfrom piece kp kf acc delta).2.board = acc.2.board ∧
    (∀ q k, handCount (pieceLoopBody mfrom piece kp kf acc delta).2 q k =
        handCount acc.2 q k) ∧
    (pieceLoopBody mfrom piece kp kf acc delta).2.turn = acc.2.turn := by
  unfold pieceLoopBody
  simp only [legalMovesForPieceAux, List.flatMap_cons, List.flatMap_nil, List.append_nil]
  by_cases hin : insideBoard ⟨mfrom.x + delta.x, mfrom.y + delta.y⟩
  · simp only [hin, Bool.not_true, Bool.false_eq_true, if_false]
    by_cases hdest :
        ((getCell acc.2.board ⟨mfrom.x + delta.x, mfrom.y + delta.y⟩).present &&
          decide ((getCell acc.2.board ⟨mfrom.x + delta.x, mfrom.y + delta.y⟩).owner
            = piece.owner)) = true
    · rw [if_pos hdest, if_pos hdest]
      simp
    · rw [if_neg hdest, if_neg hdest]
      obtain ⟨g1, g2, g3, g4⟩ := optsFold_spec piece.owner kp kf
        (fun promote =>
          ⟨some mfrom, ⟨mfrom.x + delta.x, mfrom.y + delta.y⟩, none, promote⟩)
        (if canPromote piece (mfrom.y + delta.y) then [false, true] else [false]) acc
      exact ⟨by rw [g1], g2, g3, g4⟩
  · simp [hin]

theorem legalMovesForPieceAux_cons (b : Board) (mfrom : Coord) (piece : Piece)
    (kp : Coord) (kf : Bool) (delta : Coord) (rest : List Coord) :
    legalMovesForPieceAux b mfrom piece kp kf (delta :: rest) =
      legalMovesForPieceAux b mfrom piece kp kf [delta] ++
        legalMovesForPieceAux b mfrom piece kp kf rest := by
  simp [legalMovesForPieceAux]

/-- The per-piece loop agrees with its pure characterization and preserves
board, hand counts and turn of the threaded state. -/
theorem pieceFold_spec (mfrom : Coord) (piece : Piece) (kp : Coord) (kf : Bool) :
    ∀ (offs : List Coord) (acc : List Move × GameState),
      (offs.foldl (pieceLoopBody mfrom piece kp kf) acc).1 =
          acc.1 ++ legalMovesForPieceAux acc.2.board mfrom piece kp kf offs ∧
      (offs.foldl (pieceLoopBody mfrom piece kp kf) acc).2.board = acc.2.board ∧
      (∀ q k, handCount (offs.foldl (pieceLoopBody mfrom piece kp kf) acc).2 q k =
          handCount acc.2 q k) ∧
      (offs.foldl (pieceLoopBody mfrom piece kp kf) acc).2.turn = acc.2.turn := by
  intro offs
  induction offs with
  | nil => intro acc; simp [legalMovesForPieceAux]
  | cons delta rest ih =>
    intro acc
    obtain ⟨s1, s2, s3, s4⟩ := pieceLoopBody_spec mfrom piece kp kf acc delta
    obtain ⟨h1, h2, h3, h4⟩ := ih (pieceLoopBody mfrom piece kp kf acc delta)
    rw [List.foldl_cons]
    refine ⟨?_, ?_, ?_, ?_⟩
    · rw [h1, s1, s2]
      simp [legalMovesForPieceAux, List.append_assoc]
    · rw [h2, s2]
    · intro q k; rw [h3, s3]
    · rw [h4, s4]

theorem appendLegalMovesForPiece_spec (s : GameState) (mfrom : Coord) (piece : Piece)
    (kp : Coord) (kf : Bool) (moves : List Move) :
    (appendLegalMovesForPiece s mfrom piece kp kf moves).1 =
        moves ++ legalMovesForPiece s.board mfrom piece kp kf ∧
    (appendLegalMovesForPiece s mfrom piece kp kf moves).2.board = s.board ∧
    (∀ q k, handCount (appendLegalMovesForPiece s mfrom piece kp kf moves).2 q k =
        handCount s q k) ∧
    (appendLegalMovesForPiece s mfrom piece kp kf moves).2.turn = s.turn :=
  pieceFold_spec mfrom piece kp kf (movementOffsets piece) (moves, s)

/-- One step of the drop cell loop agrees with its pure characterization. -/
theorem dropLoopBody_spec (player : Player) (pieceKind : PieceType) (blocked : Int → Bool)
    (kp : Coord) (kf : Bool) (acc : List Move × GameState) (c : Coord) :
    (dropLoopBody player pieceKind blocked kp kf acc c).1 =
        acc.1 ++ (if (getCell acc.2.board c).present || blocked c.x then []
          else if candOK acc.2.board player kp kf ⟨none, c, some pieceKind, false⟩ then
            [⟨none, c, some pieceKind, false⟩] else []) ∧
    (dropLoopBody player pieceKind blocked kp kf acc c).2.board = acc.2.board ∧
    (∀ q k, handCount (dropLoopBody player pieceKind blocked kp kf acc c).2 q k =
        handCount acc.2 q k) ∧
    (dropLoopBody player pieceKind blocked kp kf acc c).2.turn = acc.2.turn := by
  by_cases hskip : ((getCell acc.2.board c).present || blocked c.x) = true
  · refine ⟨?_, ?_, ?_, ?_⟩ <;> simp_all [dropLoopBody]
  · have hm := tryCandidate_moves player kp kf acc ⟨none, c, some pieceKind, false⟩
    have hb := tryCandidate_board player kp kf acc ⟨none, c, some pieceKind, false⟩
    have hc := tryCandidate_count player kp kf acc ⟨none, c, some pieceKind, false⟩
    have ht := tryCandidate_turn player kp kf acc ⟨none, c, some pieceKind, false⟩
    refine ⟨?_, ?_, ?_, ?_⟩ <;>
      simp_all [dropLoopBody] <;>
      split <;> simp_all

/-- The drop cell loop agrees with its pure characterization, for a blocked
mask that is a function of the (invariant) board. -/
theorem dropFold_spec (player : Player) (pieceKind : PieceType) (blocked : Int → Bool)
    (kp : Coord) (kf : Bool) :
    ∀ (cells : List Coord) (acc : List Move × GameState),
      (cells.foldl (dropLoopBody player pieceKind blocked kp kf) acc).1 =
          acc.1 ++ cells.flatMap (fun c =>
            if (getCell acc.2.board c).present || blocked c.x then []
            else if candOK acc.2.board player kp kf ⟨none, c, some pieceKind, false⟩ then
              [⟨none, c, some pieceKind, false⟩] else []) ∧
      (cells.foldl (dropLoopBody player pieceKind blocked kp kf) acc).2.board =
          acc.2.board ∧
      (∀ q k, handCount
          (cells.foldl (dropLoopBody player pieceKind blocked kp kf) acc).2 q k =
          handCount acc.2 q k) ∧
      (cells.foldl (dropLoopBody player pieceKind blocked kp kf) acc).2.turn =
          acc.2.turn := by
  intro cells
  induction cells with
  | nil => intro acc; simp
  | cons c rest ih =>
    intro acc
    obtain ⟨s1, s2, s3, s4⟩ := dropLoopBody_spec player pieceKind blocked kp kf acc c
    obtain ⟨h1, h2, h3, h4⟩ := ih (dropLoopBody player pieceKind blocked kp kf acc c)
    rw [List.foldl_cons]
    refine ⟨?_, ?_, ?_, ?_⟩
    · rw [h1, s1, s2, List.flatMap_cons, List.append_assoc]
    · rw [h2, s2]
    · intro q k; rw [h3, s3]
    · rw [h4, s4]

theorem appendLegalDrops_spec (s : GameState) (player : Player) (pieceKind : PieceType)
    (kp : Coord) (kf : Bool) (moves : List Move) :
    (appendLegalDrops s player pieceKind kp kf moves).1 =
        moves ++ legalDropsPure s.board player pieceKind kp kf ∧
    (appendLegalDrops s player pieceKind kp kf moves).2.board = s.board ∧
    (∀ q k, handCount (appendLegalDrops s player pieceKind kp kf moves).2 q k =
        handCount s q k) ∧
    (appendLegalDrops s player pieceKind kp kf moves).2.turn = s.turn := by
  unfold appendLegalDrops
  obtain ⟨h1, h2, h3, h4⟩ := dropFold_spec player pieceKind
    (fun x => pieceKind = .Pawn && columnHasUnpromotedPawn s.board player x) kp kf
    coordList (moves, s)
  refine ⟨?_, h2, h3, h4⟩
  rw [h1]
  rfl

/-- Pure move list of the board scan phase of `GenerateLegalMoves`. -/
def piecePhase (b : Board) (player : Player) (kp : Coord) (kf : Bool) : List Move :=
  coordList.flatMap fun c =>
    let piece := getCell b c
    if piece.present && piece.owner = player then legalMovesForPiece b c piece kp kf
    else []

theorem genPieceLoopBody_spec (player : Player) (kp : Coord) (kf : Bool)
    (acc : List Move × GameState) (c : Coord) :
    (genPieceLoopBody player kp kf acc c).1 =
        acc.1 ++ (if (getCell acc.2.board c).present &&
            (getCell acc.2.board c).owner = player then
          legalMovesForPiece acc.2.board c (getCell acc.2.board c) kp kf else []) ∧
    (genPieceLoopBody player kp kf acc c).2.board = acc.2.board ∧
    (∀ q k, handCount (genPieceLoopBody player kp kf acc c).2 q k = handCount acc.2 q k) ∧
    (genPieceLoopBody player kp kf acc c).2.turn = acc.2.turn := by
  unfold genPieceLoopBody
  by_cases h : ((getCell acc.2.board c).present &&
      decide ((getCell acc.2.board c).owner = player)) = true
  · rw [if_pos h, if_pos h]
    obtain ⟨h1, h2, h3, h4⟩ :=
      appendLegalMovesForPiece_spec acc.2 c (getCell acc.2.board c) kp kf acc.1
    exact ⟨h1, h2, h3, h4⟩
  · rw [if_neg h, if_neg h]
    simp

theorem genPieceFold_spec (player : Player) (kp : Coord) (kf : Bool) :
    ∀ (cells : List Coord) (acc : List Move × GameState),
      (cells.foldl (genPieceLoopBody player kp kf) acc).1 =
          acc.1 ++ cells.flatMap (fun c =>
            if (getCell acc.2.board c).present &&
                (getCell acc.2.board c).owner = player then
              legalMovesForPiece acc.2.board c (getCell acc.2.board c) kp kf else []) ∧
      (cells.foldl (genPieceLoopBody player kp kf) acc).2.board = acc.2.board ∧
      (∀ q k, handCount (cells.foldl (genPieceLoopBody player kp kf) acc).2 q k =
          handCount acc.2 q k) ∧
      (cells.foldl (genPieceLoopBody player kp kf) acc).2.turn = acc.2.turn := by
  intro cells
  induction cells with
  | nil => intro acc; simp
  | cons c rest ih =>
    intro acc
    obtain ⟨s1, s2, s3, s4⟩ := genPieceLoopBody_spec player kp kf acc c
    obtain ⟨h1, h2, h3, h4⟩ := ih (genPieceLoopBody player kp kf acc c)
    rw [List.foldl_cons]
    refine ⟨?_, ?_, ?_, ?_⟩
    · rw [h1, s1, s2, List.flatMap_cons, List.append_assoc]
    · rw [h2, s2]
    · intro q k; rw [h3, s3]
    · rw [h4, s4]

theorem genDropLoopBody_spec (player : Player) (kp : Coord) (kf : Bool)
    (acc : List Move × GameState) (k : PieceType) :
    (genDropLoopBody player kp kf acc k).1 =
        acc.1 ++ legalDropsPure acc.2.board player k kp kf ∧
    (genDropLoopBody player kp kf acc k).2.board = acc.2.board ∧
    (∀ q k', handCount (genDropLoopBody player kp kf acc k).2 q k' =
        handCount acc.2 q k') ∧
    (genDropLoopBody player kp kf acc k).2.turn = acc.2.turn :=
  appendLegalDrops_spec acc.2 player k kp kf acc.1

theorem genDropFold_spec (player : Player) (kp : Coord) (kf : Bool) :
    ∀ (kinds : List PieceType) (acc : List Move × GameState),
      (kinds.foldl (genDropLoopBody player kp kf) acc).1 =
          acc.1 ++ kinds.flatMap (fun k => legalDropsPure acc.2.board player k kp kf) ∧
      (kinds.foldl (genDropLoopBody player kp kf) acc).2.board = acc.2.board ∧
      (∀ q k', handCount (kinds.foldl (genDropLoopBody player kp kf) acc).2 q k' =
          handCount acc.2 q k') ∧
      (kinds.foldl (genDropLoopBody player kp kf) acc).2.turn = acc.2.turn := by
  intro kinds
  induction kinds with
  | nil => intro acc; simp
  | cons k rest ih =>
    intro acc
    obtain ⟨s1, s2, s3, s4⟩ := genDropLoopBody_spec player kp kf acc k
    obtain ⟨h1, h2, h3, h4⟩ := ih (genDropLoopBody player kp kf acc k)
    rw [List.foldl_cons]
    refine ⟨?_, ?_, ?_, ?_⟩
    · rw [h1, s1, s2, List.flatMap_cons, List.append_assoc]
    · rw [h2, s2]
    · intro q k'; rw [h3, s3]
    · rw [h4, s4]

/-- The kinds the drop loop ranges over: the keys present in the mover's hand
map *after* the board scan phase (which may have inserted zero-count keys for
captured kinds). -/
def dropKindsAfterScan (s : GameState) (player : Player) : List PieceType :=
  pieceTypeList.filter fun k =>
    ((coordList.foldl
        (genPieceLoopBody player (findKing s player).1 (findKing s player).2)
        ([], s)).2.hands player k).isSome

/-- `GenerateLegalMoves`, characterized purely: the board-scan moves computed
from the entry board, followed by the drops of each hand key present after
the scan. -/
theorem generateLegalMoves_eq (s : GameState) (player : Player) :
    GenerateLegalMoves s player =
      piecePhase s.board player (findKing s player).1 (findKing s player).2 ++
        (dropKindsAfterScan s player).flatMap
          (fun k => legalDropsPure s.board player k
            (findKing s player).1 (findKing s player).2) := by
  unfold GenerateLegalMoves generateLegalMovesFull
  obtain ⟨h1, h2, h3, h4⟩ := genPieceFold_spec player
    (findKing s player).1 (findKing s player).2 coordList ([], s)
  obtain ⟨g1, g2, g3, g4⟩ := genDropFold_spec player
    (findKing s player).1 (findKing s player).2
    (pieceTypeList.filter fun k =>
      ((coordList.foldl
          (genPieceLoopBody player (findKing s player).1 (findKing s player).2)
          ([], s)).2.hands player k).isSome)
    (coordList.foldl
      (genPieceLoopBody player (findKing s player).1 (findKing s player).2) ([], s))
  rw [g1, h1, h2]
  rfl

/-- The state observed by the caller after `GenerateLegalMoves`: same board,
same hand counts, same turn (hand maps may have gained zero-count keys). -/
theorem generateLegalMovesFull_state (s : GameState) (player : Player) :
    (generateLegalMovesFull s player).2.board = s.board ∧
    (∀ q k, handCount (generateLegalMovesFull s player).2 q k = handCount s q k) ∧
    (generateLegalMovesFull s player).2.turn = s.turn := by
  unfold generateLegalMovesFull
  obtain ⟨h1, h2, h3, h4⟩ := genPieceFold_spec player
    (findKing s player).1 (findKing s player).2 coordList ([], s)
  obtain ⟨g1, g2, g3, g4⟩ := genDropFold_spec player
    (findKing s player).1 (findKing s player).2
    (pieceTypeList.filter fun k =>
      ((coordList.foldl
          (genPieceLoopBody player (findKing s player).1 (findKing s player).2)
          ([], s)).2.hands player k).isSome)
    (coordList.foldl
      (genPieceLoopBody player (findKing s player).1 (findKing s player).2) ([], s))
  refine ⟨?_, ?_, ?_⟩
  · rw [g2, h2]
  · intro q k; rw [g3, h3]
  · rw [g4, h4]

/-! ## King tracking: the incremental king position versus a fresh scan -/

/-- Every inside coordinate occurs in the scan order. -/
theorem mem_coordList_of_inside (c : Coord) (h : insideBoard c = true) : c ∈ coordList := by
  simp only [insideBoard, BoardCols, BoardRows, Bool.and_eq_true, decide_eq_true_eq] at h
  obtain ⟨⟨⟨hx0, hx5⟩, hy0⟩, hy6⟩ := h
  have hx : (c.x.toNat : Int) = c.x := by omega
  have hy : (c.y.toNat : Int) = c.y := by omega
  have hc : c = ⟨(c.x.toNat : Int), (c.y.toNat : Int)⟩ := by
    cases c
    simp_all
  have hx' : c.x.toNat = 0 ∨ c.x.toNat = 1 ∨ c.x.toNat = 2 ∨ c.x.toNat = 3 ∨
      c.x.toNat = 4 := by omega
  have hy' : c.y.toNat = 0 ∨ c.y.toNat = 1 ∨ c.y.toNat = 2 ∨ c.y.toNat = 3 ∨
      c.y.toNat = 4 ∨ c.y.toNat = 5 := by omega
  rw [hc]
  rcases hx' with h1 | h1 | h1 | h1 | h1 <;>
    rcases hy' with h2 | h2 | h2 | h2 | h2 | h2 <;>
    rw [h1, h2] <;> decide

/-- `find?` returns the unique element satisfying the predicate. -/
theorem find?_unique {α : Type} (pred : α → Bool) (a : α) :
    ∀ (l : List α), a ∈ l → pred a = true → (∀ x ∈ l, pred x = true → x = a) →
      l.find? pred = some a := by
  intro l
  induction l with
  | nil => intro h; simp at h
  | cons h t ih =>
    intro hmem hpred huniq
    by_cases hh : pred h = true
    · rw [List.find?_cons_of_pos _ hh]
      rw [huniq h (List.mem_cons_self h t) hh]
    · rw [List.find?_cons_of_neg _ hh]
      have hat : a ∈ t := by
        rcases List.mem_cons.mp hmem with rfl | hat
        · exact absurd hpred hh
        · exact hat
      exact ih hat hpred (fun x hx px => huniq x (List.mem_cons_of_mem h hx) px)

/-- In a list with at most one element satisfying the predicate, all
satisfying members coincide. -/
theorem countP_le_one_unique {α : Type} (pred : α → Bool) (a : α) :
    ∀ (l : List α), l.countP pred ≤ 1 → a ∈ l → pred a = true →
      ∀ x ∈ l, pred x = true → x = a := by
  intro l
  induction l with
  | nil => intro _ h; simp at h
  | cons h t ih =>
    intro hcount hmem hpred x hx hpx
    rw [List.countP_cons] at hcount
    by_cases hh : pred h = true
    · have ht0 : t.countP pred = 0 := by
        rw [if_pos hh] at hcount
        omega
      have hnone : ∀ y ∈ t, ¬pred y = true := by
        intro y hy hpy
        have hpos : 0 < t.countP pred := List.countP_pos_iff.mpr ⟨y, hy, hpy⟩
        omega
      have hxh : x = h := by
        rcases List.mem_cons.mp hx with rfl | hxt
        · rfl
        · exact absurd hpx (hnone x hxt)
      have hah : a = h := by
        rcases List.mem_cons.mp hmem with rfl | hat
        · rfl
        · exact absurd hpred (hnone a hat)
      rw [hxh, hah]
    · have hat : a ∈ t := by
        rcases List.mem_cons.mp hmem with rfl | hat
        · exact absurd hpred hh
        · exact hat
      have hxt : x ∈ t := by
        rcases List.mem_cons.mp hx with rfl | hxt
        · exact absurd hpx hh
        · exact hxt
      have : t.countP pred ≤ 1 := by
        rw [if_neg hh] at hcount
        omega
      exact ih this hat hpred x hxt hpx

/-- Number of cells holding the player's king. -/
def boardKingCount (b : Board) (player : Player) : Nat :=
  coordList.countP (kingPred b player)

theorem findKingB_congr (b1 b2 : Board) (player : Player)
    (h : ∀ c, kingPred b1 player c = kingPred b2 player c) :
    findKingB b1 player = findKingB b2 player := by
  unfold findKingB
  rw [funext h]

theorem findKingB_of_unique (b : Board) (player : Player) (c : Coord)
    (hmem : c ∈ coordList) (hc : kingPred b player c = true)
    (huniq : ∀ x ∈ coordList, kingPred b player x = true → x = c) :
    findKingB b player = (c, true) := by
  unfold findKingB
  rw [find?_unique (kingPred b player) c coordList hmem hc huniq]

/-- `game.IsCheckmate`. -/
def IsCheckmate (s : GameState) (player : Player) : Bool :=
  InCheck s player && decide (GenerateLegalMoves s player = [])

/-- `game.CheckmateStatus`. -/
def CheckmateStatus (s : GameState) : Bool × Player :=
  if !IsCheckmate s s.turn then (false, .Bottom)
  else (true, s.turn.Opponent)

theorem mem_ite_singleton {α : Type} (c : Prop) [Decidable c] (x m : α) :
    (m ∈ if c then [x] else []) ↔ c ∧ m = x := by
  split <;> simp_all

/-- Unpacking membership in the pure per-piece move list. -/
theorem mem_legalMovesForPiece (b : Board) (mfrom : Coord) (piece : Piece)
    (kp : Coord) (kf : Bool) (m : Move) :
    m ∈ legalMovesForPiece b mfrom piece kp kf ↔
    ∃ delta ∈ movementOffsets piece, ∃ promote,
      m = ⟨some mfrom, ⟨mfrom.x + delta.x, mfrom.y + delta.y⟩, none, promote⟩ ∧
      insideBoard ⟨mfrom.x + delta.x, mfrom.y + delta.y⟩ = true ∧
      ¬((getCell b ⟨mfrom.x + delta.x, mfrom.y + delta.y⟩).present = true ∧
        (getCell b ⟨mfrom.x + delta.x, mfrom.y + delta.y⟩).owner = piece.owner) ∧
      promote ∈ (if canPromote piece (mfrom.y + delta.y) then [false, true] else [false]) ∧
      candOK b piece.owner kp kf m = true := by
  unfold legalMovesForPiece legalMovesForPieceAux
  simp only [List.mem_flatMap]
  constructor
  · rintro ⟨delta, hd, hm⟩
    by_cases hin : insideBoard ⟨mfrom.x + delta.x, mfrom.y + delta.y⟩ = true
    · rw [if_neg (by simp [hin])] at hm
      by_cases hdest : ((getCell b ⟨mfrom.x + delta.x, mfrom.y + delta.y⟩).present &&
          decide ((getCell b ⟨mfrom.x + delta.x, mfrom.y + delta.y⟩).owner = piece.owner))
          = true
      · rw [if_pos hdest] at hm
        simp at hm
      · rw [if_neg hdest] at hm
        simp only [List.mem_flatMap] at hm
        obtain ⟨pr, hpr, hm⟩ := hm
        rw [mem_ite_singleton] at hm
        obtain ⟨hok, rfl⟩ := hm
        refine ⟨delta, hd, pr, rfl, hin, ?_, hpr, hok⟩
        intro hcon
        apply hdest
        simp [hcon.1, hcon.2]
    · rw [if_pos (by simp_all)] at hm
      simp at hm
  · rintro ⟨delta, hd, promote, rfl, hin, hdest, hpr, hok⟩
    refine ⟨delta, hd, ?_⟩
    rw [if_neg (by simp [hin])]
    rw [if_neg (by simp; intro h1 h2; exact hdest ⟨h1, h2⟩)]
    simp only [List.mem_flatMap]
    exact ⟨promote, hpr, by rw [mem_ite_singleton]; exact ⟨hok, rfl⟩⟩

/-- Unpacking membership in the pure drop list. -/
theorem mem_legalDropsPure (b : Board) (player : Player) (k : PieceType)
    (kp : Coord) (kf : Bool) (m : Move) :
    m ∈ legalDropsPure b player k kp kf ↔
    ∃ c ∈ coordList,
      m = ⟨none, c, some k, false⟩ ∧
      ¬((getCell b c).present = true ∨
        (k = PieceType.Pawn ∧ columnHasUnpromotedPawn b player c.x = true)) ∧
      candOK b player kp kf m = true := by
  unfold legalDropsPure legalDropsAux
  simp only [List.mem_flatMap]
  constructor
  · rintro ⟨c, hc, hm⟩
    by_cases hskip : ((getCell b c).present ||
        (decide (k = PieceType.Pawn) && columnHasUnpromotedPawn b player c.x)) = true
    · rw [if_pos hskip] at hm
      simp at hm
    · rw [if_neg hskip] at hm
      rw [mem_ite_singleton] at hm
      obtain ⟨hok, rfl⟩ := hm
      refine ⟨c, hc, rfl, ?_, hok⟩
      intro hcon
      apply hskip
      rcases hcon with h | ⟨h1, h2⟩
      · simp [h]
      · simp [h1, h2]
  · rintro ⟨c, hc, rfl, hskip, hok⟩
    refine ⟨c, hc, ?_⟩
    rw [if_neg ?_]
    · rw [mem_ite_singleton]
      exact ⟨hok, rfl⟩
    · simp only [Bool.or_eq_true, Bool.and_eq_true, decide_eq_true_eq]
      intro h
      apply hskip
      rcases h with h | ⟨h1, h2⟩
      · exact Or.inl h
      · exact Or.inr ⟨h1, h2⟩

/-- Unpacking membership in the board-scan phase. -/
theorem mem_piecePhase (b : Board) (player : Player) (kp : Coord) (kf : Bool) (m : Move) :
    m ∈ piecePhase b player kp kf ↔
    ∃ c ∈ coordList,
      (getCell b c).present = true ∧ (getCell b c).owner = player ∧
      m ∈ legalMovesForPiece b c (getCell b c) kp kf := by
  unfold piecePhase
  simp only [List.mem_flatMap]
  constructor
  · rintro ⟨c, hc, hm⟩
    by_cases hcond : ((getCell b c).present && decide ((getCell b c).owner = player)) = true
    · rw [if_pos hcond] at hm
      simp only [Bool.and_eq_true, decide_eq_true_eq] at hcond
      exact ⟨c, hc, hcond.1, hcond.2, hm⟩
    · rw [if_neg hcond] at hm
      simp at hm
  · rintro ⟨c, hc, h1, h2, hm⟩
    refine ⟨c, hc, ?_⟩
    rw [if_pos (by simp [h1, h2])]
    exact hm

/-! ## Claim C1: self-check safety of generated moves -/

@[simp] theorem getCell_setCell_same (b : Board) (c : Coord) (p : Piece) :
    getCell (setCell b c p) c = p := by
  simp [getCell, setCell]

theorem getCell_setCell_other (b : Board) (c c' : Coord) (p : Piece) (h : c' ≠ c) :
    getCell (setCell b c p) c' = getCell b c' := by
  simp [getCell, setCell, h]

theorem InCheck_eq (s : GameState) (p : Player) :
    InCheck s p =
      (if (findKingB s.board p).2 then
        isKingThreatened s.board p (findKingB s.board p).1
      else false) := rfl

/-- The check component of a passing candidate filter is false. -/
theorem candOK_check_false (b : Board) (p : Player) (kp : Coord) (kf : Bool) (m : Move)
    (hok : candOK b p kp kf m = true) :
    (if (kingPositionAfterDiff p (diffFor b m p) kp kf).2 then
      isKingThreatened (boardApplyMove b m p) p
        (kingPositionAfterDiff p (diffFor b m p) kp kf).1
    else false) = false := by
  unfold candOK at hok
  rw [Bool.and_eq_true] at hok
  have h1 := hok.1
  rwa [Bool.not_eq_true'] at h1

/-- Core of the amended claim C1: a move accepted by the candidate filter
leaves the mover out of check in the resulting position, provided the mover
has at most one king on the board and the move is not a king drop. -/
theorem generated_move_no_self_check (s : GameState) (p : Player) (m : Move)
    (hkc : boardKingCount s.board p ≤ 1)
    (hmem : m ∈ GenerateLegalMoves s p)
    (hnk : m.mdrop ≠ some PieceType.King) :
    InCheck (ApplyMove { s with turn := p } m) p = false := by
  have hboard : (ApplyMove { s with turn := p } m).board = boardApplyMove s.board m p :=
    applyMove_board { s with turn := p } m
  rw [InCheck_eq, hboard]
  rw [generateLegalMoves_eq, List.mem_append] at hmem
  rcases hmem with hpc | hdrop
  · -- board move of an own piece
    rw [mem_piecePhase] at hpc
    obtain ⟨c, hc, hpres, howner, hm⟩ := hpc
    rw [mem_legalMovesForPiece] at hm
    obtain ⟨delta, hdel, promote, hmeq, hin, hdest, hpr, hok⟩ := hm
    rw [howner] at hok hdest
    have hchk := candOK_check_false s.board p (findKingB s.board p).1
      (findKingB s.board p).2 m hok
    have hkey : findKingB (boardApplyMove s.board m p) p =
        kingPositionAfterDiff p (diffFor s.board m p)
          (findKingB s.board p).1 (findKingB s.board p).2 := by
      subst hmeq
      simp only [boardApplyMove, diffFor, kingPositionAfterDiff]
      by_cases hking : (getCell s.board c).kind = PieceType.King
      · rw [if_pos (by simp [howner, hking])]
        apply findKingB_of_unique
        · exact mem_coordList_of_inside _ hin
        · simp [kingPred, howner, hking]
        · intro x hx hpx
          by_cases hxtc : x = (⟨c.x + delta.x, c.y + delta.y⟩ : Coord)
          · exact hxtc
          · exfalso
            rw [kingPred, getCell_setCell_other _ _ _ _ hxtc] at hpx
            by_cases hxc : x = c
            · subst hxc
              rw [getCell_setCell_same] at hpx
              simp [emptyPiece] at hpx
            · rw [getCell_setCell_other _ _ _ _ hxc] at hpx
              have hpredc : kingPred s.board p c = true := by
                simp [kingPred, hpres, howner, hking]
              have := countP_le_one_unique (kingPred s.board p) c coordList
                hkc hc hpredc x hx hpx
              exact hxc this
      · rw [if_neg (by simp [howner, hking])]
        apply findKingB_congr
        intro x
        by_cases hxtc : x = (⟨c.x + delta.x, c.y + delta.y⟩ : Coord)
        · subst hxtc
          rw [kingPred, getCell_setCell_same]
          rw [kingPred]
          by_cases hp2 : (getCell s.board (⟨c.x + delta.x, c.y + delta.y⟩ : Coord)).present
              = true
          · have : ¬(getCell s.board (⟨c.x + delta.x, c.y + delta.y⟩ : Coord)).owner = p := by
              intro hcon
              exact hdest ⟨hp2, hcon⟩
            simp [this, hking]
          · simp [hp2, hking]
        · rw [kingPred, getCell_setCell_other _ _ _ _ hxtc]
          by_cases hxc : x = c
          · subst hxc
            rw [getCell_setCell_same, kingPred]
            simp [emptyPiece, hking]
          · rw [getCell_setCell_other _ _ _ _ hxc, kingPred]
    rw [hkey]
    exact hchk
  · -- drop
    rw [List.mem_flatMap] at hdrop
    obtain ⟨k, hkmem, hm⟩ := hdrop
    rw [mem_legalDropsPure] at hm
    obtain ⟨c, hc, hmeq, hskip, hok⟩ := hm
    have hkK : k ≠ PieceType.King := by
      intro h
      rw [hmeq] at hnk
      simp [h] at hnk
    have hnp : (getCell s.board c).present = false := by
      by_cases h : (getCell s.board c).present = true
      · exact absurd (Or.inl h) hskip
      · simpa using h
    have hchk := candOK_check_false s.board p (findKingB s.board p).1
      (findKingB s.board p).2 m hok
    have hkey : findKingB (boardApplyMove s.board m p) p =
        kingPositionAfterDiff p (diffFor s.board m p)
          (findKingB s.board p).1 (findKingB s.board p).2 := by
      subst hmeq
      simp only [boardApplyMove, diffFor, kingPositionAfterDiff]
      rw [if_neg (by simp)]
      apply findKingB_congr
      intro x
      by_cases hxc : x = c
      · subst hxc
        rw [kingPred, getCell_setCell_same, kingPred]
        simp [hkK, hnp]
      · rw [kingPred, getCell_setCell_other _ _ _ _ hxc, kingPred]
    rw [hkey]
    exact hchk

/-! ## Concrete positions used by witnesses and counterexamples -/

/-- Build a board from an association list of occupied cells. -/
def boardOfList (l : List (Coord × Piece)) : Board :=
  fun c => ((l.find? fun e => e.1 = c).map Prod.snd).getD emptyPiece

/-- One game step as the engines and the server drive the rules: apply a
move for the side to move, then flip the turn. -/
def stepState (s : GameState) (m : Move) : GameState :=
  let t := ApplyMove s m
  { t with turn := s.turn.Opponent }

/-- One legal step between positions. -/
def stepLegal (s t : GameState) : Prop :=
  ∃ m ∈ GenerateLegalMoves s s.turn, t = stepState s m

/-- Positions reachable from the initial setup by repeatedly applying a
generated move for the side to move. -/
def ReachableFromStart (t : GameState) : Prop :=
  Relation.ReflTransGen stepLegal NewGame t

/-- C1 counterexample (i): the mover holds a King in hand.  Bottom's board
king is on c6; a Top gold on a2 attacks a1.  Dropping the in-hand King on a1
passes the generator's check filter (which tracks only the board king), yet
the resulting position has `InCheck = true` because `findKing` then finds the
dropped king first in scan order. -/
def cx1 : GameState :=
  { board := boardOfList [(⟨2, 5⟩, ⟨.King, .Bottom, false, true⟩),
      (⟨0, 1⟩, ⟨.Gold, .Top, false, true⟩)],
    hands := fun q k => if q = .Bottom ∧ k = .King then some 1 else none,
    turn := .Bottom }

def mcx1 : Move := ⟨none, ⟨0, 0⟩, some .King, false⟩

/-- C1 counterexample (ii): the mover has two kings on the board.  Moving the
second king (e5 to e5's neighbour) is accepted although the first king on a1
is under attack in the resulting position. -/
def cx2 : GameState :=
  { board := boardOfList [(⟨0, 0⟩, ⟨.King, .Bottom, false, true⟩),
      (⟨4, 5⟩, ⟨.King, .Bottom, false, true⟩),
      (⟨0, 1⟩, ⟨.Gold, .Top, false, true⟩)],
    hands := fun _ _ => none,
    turn := .Bottom }

def mcx2 : Move := ⟨some ⟨4, 5⟩, ⟨4, 4⟩, none, false⟩

/-- Witness position for C1: a bare legal king move. -/
def w1 : GameState :=
  { board := boardOfList [(⟨2, 0⟩, ⟨.King, .Bottom, false, true⟩),
      (⟨2, 5⟩, ⟨.King, .Top, false, true⟩)],
    hands := fun _ _ => none,
    turn := .Bottom }

def mw1 : Move := ⟨some ⟨2, 0⟩, ⟨2, 1⟩, none, false⟩

/-- C1, as frozen, is false: `GenerateLegalMoves` can contain a move whose
application leaves the mover in check.  Both failure modes are exhibited: a
King dropped from hand, and a move of a second board king. -/
theorem C1_counterexample :
    (mcx1 ∈ GenerateLegalMoves cx1 .Bottom ∧
      InCheck (ApplyMove { cx1 with turn := .Bottom } mcx1) .Bottom = true) ∧
    (mcx2 ∈ GenerateLegalMoves cx2 .Bottom ∧
      InCheck (ApplyMove { cx2 with turn := .Bottom } mcx2) .Bottom = true) := by
  refine ⟨⟨by decide, by decide⟩, ⟨by decide, by decide⟩⟩

/-- C1 (amended): every generated move, applied by the generating player,
leaves that player's king unattacked (`InCheck` of the resulting position is
false), provided the player has at most one King on the board and the move is
not a King drop. -/
theorem C1_legal_moves_self_check_safe (s : GameState) (p : Player) (m : Move)
    (hkc : boardKingCount s.board p ≤ 1)
    (hmem : m ∈ GenerateLegalMoves s p)
    (hnk : m.mdrop ≠ some PieceType.King) :
    InCheck (ApplyMove { s with turn := p } m) p = false :=
  generated_move_no_self_check s p m hkc hmem hnk

theorem C1_witness :
    boardKingCount w1.board Player.Bottom ≤ 1 ∧
    mw1 ∈ GenerateLegalMoves w1 Player.Bottom ∧
    InCheck (ApplyMove { w1 with turn := Player.Bottom } mw1) Player.Bottom = false :=
  ⟨by decide, by decide,
    C1_legal_moves_self_check_safe w1 Player.Bottom mw1 (by decide) (by decide) (by decide)⟩

/-- C2: the invariant fails on the very first move.  Generating moves for the
initial position tries the three pawn captures in place, which inserts a
zero-count Pawn key into Bottom's hand map; the drop loop then offers pawn
drops from an empty hand, and applying one drives the hand count to -1. -/
theorem C2_negative_hand_reachable :
    ∃ t, ReachableFromStart t ∧ handCount t Player.Bottom PieceType.Pawn < 0 := by
  refine ⟨stepState NewGame ⟨none, ⟨0, 1⟩, some .Pawn, false⟩, ?_, by decide⟩
  apply Relation.ReflTransGen.single
  exact ⟨⟨none, ⟨0, 1⟩, some .Pawn, false⟩, by decide, rfl⟩

/-! ## Claim C3: in-place apply equals clone+apply; undo restores -/

/-- The in-place apply for the side to move produces the same board, hands
and turn as `CloneState` followed by `ApplyMove` (unconditionally). -/
theorem applyInPlace_eq_clone_apply (s : GameState) (m : Move) :
    (applyMoveInPlaceS s m s.turn).2.board = (ApplyMove (CloneState s) m).board ∧
    (∀ q k, (applyMoveInPlaceS s m s.turn).2.hands q k =
      (ApplyMove (CloneState s) m).hands q k) ∧
    (applyMoveInPlaceS s m s.turn).2.turn = (ApplyMove (CloneState s) m).turn := by
  rw [cloneState_eq]
  unfold applyMoveInPlaceS ApplyMove
  cases hd : m.mdrop with
  | some k => simp
  | none =>
    cases hf : m.mfrom with
    | none => simp
    | some f =>
      by_cases hcap : (getCell s.board m.mto).present = true
      · simp [hcap, addToHand]
      · simp [hcap]

/-- Well-formedness of a move for a state, as the claim puts it: a drop of a
kind actually held in hand, or a board move whose source cell holds the
mover's piece. -/
def WellFormedMove (s : GameState) (m : Move) : Prop :=
  (∃ k, m.mdrop = some k ∧ m.mfrom = none ∧ 1 ≤ handCount s s.turn k) ∨
  (∃ f, m.mfrom = some f ∧ m.mdrop = none ∧
    (getCell s.board f).present = true ∧ (getCell s.board f).owner = s.turn)

/-- C3 counterexample: undo does not restore the hand maps *exactly*.  A
capture of a kind absent from the mover's hand leaves a zero-count entry
behind: the key set of the map differs from the original (observable in Go
via `range`/`len`).  Bottom pawn on b3 captures the Top pawn on b4. -/
def cx3 : GameState :=
  { board := boardOfList [(⟨1, 2⟩, ⟨.Pawn, .Bottom, false, true⟩),
      (⟨1, 3⟩, ⟨.Pawn, .Top, false, true⟩)],
    hands := fun _ _ => none,
    turn := .Bottom }

def mcx3 : Move := ⟨some ⟨1, 2⟩, ⟨1, 3⟩, none, false⟩

theorem C3_counterexample :
    WellFormedMove cx3 mcx3 ∧
    cx3.hands Player.Bottom PieceType.Pawn = none ∧
    (undoMove (applyMoveInPlaceS cx3 mcx3 Player.Bottom).2
        (applyMoveInPlaceS cx3 mcx3 Player.Bottom).1).hands
      Player.Bottom PieceType.Pawn = some 0 := by
  refine ⟨Or.inr ⟨⟨1, 2⟩, rfl, rfl, by decide, by decide⟩, by decide, by decide⟩

/-- C3 (amended): for a well-formed move of the side to move, the in-place
apply produces exactly the board, hands and turn of clone+apply; the
subsequent undo restores the board and every hand count exactly, and each
hand map entry is either exactly restored or was absent before the move and
is a zero-count entry afterwards (the captured kind of a capturing move). -/
theorem C3_inplace_apply_undo (s : GameState) (m : Move)
    (hwf : WellFormedMove s m) :
    ((applyMoveInPlaceS s m s.turn).2.board = (ApplyMove (CloneState s) m).board ∧
      (∀ q k, (applyMoveInPlaceS s m s.turn).2.hands q k =
        (ApplyMove (CloneState s) m).hands q k) ∧
      (applyMoveInPlaceS s m s.turn).2.turn = (ApplyMove (CloneState s) m).turn) ∧
    ((undoMove (applyMoveInPlaceS s m s.turn).2 (applyMoveInPlaceS s m s.turn).1).board
        = s.board ∧
      (∀ q k, handCount
          (undoMove (applyMoveInPlaceS s m s.turn).2 (applyMoveInPlaceS s m s.turn).1) q k
        = handCount s q k) ∧
      (∀ q k,
        (undoMove (applyMoveInPlaceS s m s.turn).2
            (applyMoveInPlaceS s m s.turn).1).hands q k = s.hands q k ∨
          (s.hands q k = none ∧
            (undoMove (applyMoveInPlaceS s m s.turn).2
              (applyMoveInPlaceS s m s.turn).1).hands q k = some 0))) := by
  refine ⟨applyInPlace_eq_clone_apply s m, ?_, ?_, ?_⟩
  · exact undo_apply_board s m s.turn
  · intro q k
    exact undo_apply_count s m s.turn q k
  · intro q k
    exact undo_apply_hand_cases s m s.turn q k

theorem C3_witness :
    WellFormedMove w1 mw1 ∧
    (undoMove (applyMoveInPlaceS w1 mw1 w1.turn).2
        (applyMoveInPlaceS w1 mw1 w1.turn).1).board = w1.board := by
  have hwf : WellFormedMove w1 mw1 :=
    Or.inr ⟨⟨2, 0⟩, rfl, rfl, by decide, by decide⟩
  exact ⟨hwf, (C3_inplace_apply_undo w1 mw1 hwf).2.1⟩

/-! ## Claim C10: GenerateLegalMoves leaves the caller's state intact -/

/-- C10: the state as the caller observes it after `GenerateLegalMoves` —
the board (restored cell by cell by the paired undos), both players' hand
counts (every lookup reads the value from before the call), and the
side-to-move flag — is exactly what it was before the call. -/
theorem C10_generate_frame (s : GameState) (p : Player) :
    (generateLegalMovesFull s p).2.board = s.board ∧
    (∀ q k, handCount (generateLegalMovesFull s p).2 q k = handCount s q k) ∧
    (generateLegalMovesFull s p).2.turn = s.turn :=
  generateLegalMovesFull_state s p

/-! ## Mate prover (game.go MateSearch / mateSearch) -/

/-- The attacker's move loop inside `mateSearch`: succeed on the first move
that checkmates immediately or whose subtree finds a forced mate. -/
def attackerLoop (defender : Player) (rec : GameState → Bool × List Move)
    (s : GameState) : List Move → Bool × List Move
  | [] => (false, [])
  | mv :: rest =>
    let next := stepState s mv
    if IsCheckmate next defender then (true, [mv])
    else
      let r := rec next
      if r.1 then (true, mv :: r.2)
      else attackerLoop defender rec s rest

/-- The defender's move loop inside `mateSearch`: fail on the first reply
whose subtree finds no mate; otherwise keep the line recorded for the first
reply (`forcedLine` is set only when still nil in Go). -/
def defenderLoop (rec : GameState → Bool × List Move) (s : GameState) :
    Option (List Move) → List Move → Bool × List Move
  | forced, [] => (true, forced.getD [])
  | forced, mv :: rest =>
    let r := rec (stepState s mv)
    if r.1 then
      defenderLoop rec s (some (forced.getD (mv :: r.2))) rest
    else (false, [])

/-- `game.mateSearch` (recursion on the remaining depth). -/
def mateSearch (attacker defender : Player) : Nat → GameState → Bool × List Move
  | 0, _ => (false, [])
  | d + 1, s =>
    let moves := GenerateLegalMoves s s.turn
    if moves = [] then
      if s.turn = defender ∧ InCheck s defender = true then (true, [])
      else (false, [])
    else if s.turn = attacker then
      attackerLoop defender (mateSearch attacker defender d) s moves
    else
      defenderLoop (mateSearch attacker defender d) s none moves

/-- `game.MateSearch`: nonpositive ply limits fail closed. -/
def MateSearch (s : GameState) (attacker : Player) (depth : Int) : Bool × List Move :=
  if depth ≤ 0 then (false, [])
  else mateSearch attacker attacker.Opponent depth.toNat s

/-! ## Decimal digits (strconv.Itoa / %.8f building blocks) -/

/-- One decimal digit as a character. -/
def digitChar : Nat → Char
  | 0 => '0' | 1 => '1' | 2 => '2' | 3 => '3' | 4 => '4'
  | 5 => '5' | 6 => '6' | 7 => '7' | 8 => '8' | 9 => '9'
  | _ => '?'

/-- Decimal value of a digit character (10 marks a non-digit). -/
def digitVal : Char → Nat
  | '0' => 0 | '1' => 1 | '2' => 2 | '3' => 3 | '4' => 4
  | '5' => 5 | '6' => 6 | '7' => 7 | '8' => 8 | '9' => 9
  | _ => 10

/-- `strconv.Itoa` for naturals: standard decimal, no leading zeros. -/
def natToDec (n : Nat) : List Char :=
  if n = 0 then ['0'] else (Nat.digits 10 n).reverse.map digitChar

/-- `strconv.Itoa` (Go int). -/
def intToDec (i : Int) : List Char :=
  if i < 0 then '-' :: natToDec i.natAbs else natToDec i.toNat

/-- Big-endian decimal evaluation, as a parser computes it. -/
def natFromDec (l : List Char) : Nat :=
  l.foldl (fun a c => a * 10 + digitVal c) 0

def intFromDec : List Char → Int
  | '-' :: rest => -(natFromDec rest : Int)
  | l => (natFromDec l : Int)

theorem digitVal_digitChar (d : Nat) (h : d < 10) : digitVal (digitChar d) = d := by
  interval_cases d <;> rfl

theorem digitChar_ne_comma (d : Nat) (h : d < 10) : digitChar d ≠ ',' := by
  interval_cases d <;> decide

theorem digitChar_ne_dot (d : Nat) (h : d < 10) : digitChar d ≠ '.' := by
  interval_cases d <;> decide

theorem digitChar_ne_bar (d : Nat) (h : d < 10) : digitChar d ≠ '|' := by
  interval_cases d <;> decide

theorem digitChar_ne_minus (d : Nat) (h : d < 10) : digitChar d ≠ '-' := by
  interval_cases d <;> decide

theorem digitChar_ne_tab (d : Nat) (h : d < 10) : digitChar d ≠ '\t' := by
  interval_cases d <;> decide

theorem foldl_digits_eval (step : Nat → Char → Nat)
    (hstep : step = fun a c => a * 10 + digitVal c) :
    ∀ (ds : List Nat), (∀ d ∈ ds, d < 10) → ∀ (acc : Nat),
      ((ds.reverse.map digitChar).foldl step acc) =
        acc * 10 ^ ds.length + Nat.ofDigits 10 ds := by
  intro ds
  induction ds with
  | nil => intro _ acc; simp [hstep, Nat.ofDigits]
  | cons d tail ih =>
    intro hlt acc
    have hd : d < 10 := hlt d (List.mem_cons_self d tail)
    have htail : ∀ x ∈ tail, x < 10 := fun x hx => hlt x (List.mem_cons_of_mem d hx)
    rw [List.reverse_cons, List.map_append, List.foldl_append]
    rw [ih htail acc]
    simp only [List.map_cons, List.map_nil, List.foldl_cons, List.foldl_nil]
    rw [hstep]
    simp only [digitVal_digitChar d hd]
    rw [Nat.ofDigits_cons]
    simp only [List.length_cons, pow_succ]
    ring

/-- Decimal write/read round trip for naturals. -/
theorem natFromDec_natToDec (n : Nat) : natFromDec (natToDec n) = n := by
  by_cases h : n = 0
  · subst h; rfl
  · unfold natToDec natFromDec
    rw [if_neg h]
    rw [foldl_digits_eval _ rfl (Nat.digits 10 n)
      (fun d hd => Nat.digits_lt_base (by norm_num) hd) 0]
    simp [Nat.ofDigits_digits]

/-- Every character written by `natToDec` is a decimal digit. -/
theorem natToDec_chars (n : Nat) :
    ∀ c ∈ natToDec n, ∃ d, d < 10 ∧ c = digitChar d := by
  intro c hc
  unfold natToDec at hc
  by_cases h : n = 0
  · subst h
    simp at hc
    exact ⟨0, by norm_num, hc⟩
  · rw [if_neg h] at hc
    rw [List.mem_map] at hc
    obtain ⟨d, hd, rfl⟩ := hc
    rw [List.mem_reverse] at hd
    exact ⟨d, Nat.digits_lt_base (by norm_num) hd, rfl⟩

theorem natToDec_ne_nil (n : Nat) : natToDec n ≠ [] := by
  unfold natToDec
  by_cases h : n = 0
  · simp [h]
  · rw [if_neg h]
    intro hcon
    have : Nat.digits 10 n ≠ [] := Nat.digits_ne_nil_iff_ne_zero.mpr h
    simp at hcon
    exact this hcon

/-- Decimal write/read round trip for Go ints. -/
theorem intFromDec_intToDec (i : Int) : intFromDec (intToDec i) = i := by
  unfold intToDec
  by_cases h : i < 0
  · rw [if_pos h]
    have : intFromDec ('-' :: natToDec i.natAbs) = -(natFromDec (natToDec i.natAbs) : Int) := rfl
    rw [this, natFromDec_natToDec]
    omega
  · rw [if_neg h]
    have hheadne : ∀ l, (∀ c ∈ l, ∃ d, d < 10 ∧ c = digitChar d) → l ≠ [] →
        intFromDec l = (natFromDec l : Int) := by
      intro l hl hne
      cases l with
      | nil => exact absurd rfl hne
      | cons c rest =>
        obtain ⟨d, hd, rfl⟩ := hl c (List.mem_cons_self c rest)
        have : digitChar d ≠ '-' := digitChar_ne_minus d hd
        unfold intFromDec
        split
        · rename_i heq
          rw [List.cons_eq_cons] at heq
          exact absurd heq.1 this
        · rfl
    rw [hheadne (natToDec i.toNat) (natToDec_chars i.toNat) (natToDec_ne_nil i.toNat)]
    rw [natFromDec_natToDec]
    omega

/-! ## Position keys: mcts_engine.go `encodeStateKey` -/

def playerIdx : Player → Nat
  | .Bottom => 0
  | .Top => 1

def pieceIdx : PieceType → Nat
  | .King => 0
  | .Gold => 1
  | .Silver => 2
  | .Pawn => 3

/-- What a cell contributes to a position key: empty, or owner/kind/promoted.
(The code never stores contents in a non-present cell.) -/
def cellProj (p : Piece) : Option (Player × PieceType × Bool) :=
  if p.present then some (p.owner, p.kind, p.promoted) else none

/-- Cell encoding of `encodeStateKey`: '.' or owner digit, kind digit,
promoted flag. -/
def encCellMcts : Option (Player × PieceType × Bool) → List Char
  | none => ['.']
  | some (ow, kd, pm) =>
    [digitChar (playerIdx ow), digitChar (pieceIdx kd), if pm then '1' else '0']

def cellsProj (s : GameState) : List (Option (Player × PieceType × Bool)) :=
  coordList.map fun c => cellProj (getCell s.board c)

def countsFor (s : GameState) (q : Player) : List Int :=
  [handCount s q .King, handCount s q .Gold, handCount s q .Silver, handCount s q .Pawn]

/-- Hand-count block of `encodeStateKey`: each count in decimal followed by a
comma. -/
def encCounts (l : List Int) : List Char :=
  l.flatMap fun i => intToDec i ++ [',']

/-- mcts_engine.go `encodeStateKey`: turn digit, 30 cells in scan order, then
both players' hand counts, each block preceded by a bar. -/
def encodeStateKey (s : GameState) : List Char :=
  digitChar (playerIdx s.turn) ::
    ((cellsProj s).flatMap encCellMcts ++
      ('|' :: (encCounts (countsFor s .Bottom) ++
        ('|' :: encCounts (countsFor s .Top)))))

def decPlayerChar : Char → Option Player
  | '0' => some .Bottom
  | '1' => some .Top
  | _ => none

def decPieceChar : Char → Option PieceType
  | '0' => some .King
  | '1' => some .Gold
  | '2' => some .Silver
  | '3' => some .Pawn
  | _ => none

def decBoolChar : Char → Option Bool
  | '0' => some false
  | '1' => some true
  | _ => none

def parseCellM : List Char → Option (Option (Player × PieceType × Bool) × List Char)
  | '.' :: rest => some (none, rest)
  | o :: k :: pm :: rest =>
    match decPlayerChar o, decPieceChar k, decBoolChar pm with
    | some ow, some kd, some b => some (some (ow, kd, b), rest)
    | _, _, _ => none
  | _ => none

def parseCellsM : Nat → List Char → Option (List (Option (Player × PieceType × Bool)) × List Char)
  | 0, l => some ([], l)
  | n + 1, l =>
    match parseCellM l with
    | some (c, l1) =>
      match parseCellsM n l1 with
      | some (cs, l2) => some (c :: cs, l2)
      | none => none
    | none => none

def notComma (c : Char) : Bool := !(c = ',')

def parseCount (l : List Char) : Option (Int × List Char) :=
  match l.dropWhile notComma with
  | ',' :: rest => some (intFromDec (l.takeWhile notComma), rest)
  | _ => none

def parseCounts : Nat → List Char → Option (List Int × List Char)
  | 0, l => some ([], l)
  | n + 1, l =>
    match parseCount l with
    | some (i, l1) =>
      match parseCounts n l1 with
      | some (is, l2) => some (i :: is, l2)
      | none => none
    | none => none

def parseBar : List Char → Option (List Char)
  | '|' :: rest => some rest
  | _ => none

def decodeMctsKey (l : List Char) :
    Option (Nat × List (Option (Player × PieceType × Bool)) × List Int × List Int) :=
  match l with
  | [] => none
  | t :: rest =>
    match parseCellsM 30 rest with
    | some (cs, r1) =>
      match parseBar r1 with
      | some r2 =>
        match parseCounts 4 r2 with
        | some (cb, r3) =>
          match parseBar r3 with
          | some r4 =>
            match parseCounts 4 r4 with
            | some (ct, r5) => if r5 = [] then some (digitVal t, cs, cb, ct) else none
            | none => none
          | none => none
        | none => none
      | none => none
    | none => none

theorem parseCellM_enc (c : Option (Player × PieceType × Bool)) (rest : List Char) :
    parseCellM (encCellMcts c ++ rest) = some (c, rest) := by
  match c with
  | none =>
    show parseCellM ('.' :: rest) = some (none, rest)
    simp [parseCellM]
  | some (ow, kd, pm) =>
    cases ow <;> cases kd <;> cases pm <;>
      simp [encCellMcts, parseCellM, decPlayerChar, decPieceChar, decBoolChar, playerIdx,
        pieceIdx, digitChar]

theorem parseCellsM_enc (cs : List (Option (Player × PieceType × Bool))) (rest : List Char) :
    parseCellsM cs.length (cs.flatMap encCellMcts ++ rest) = some (cs, rest) := by
  induction cs generalizing rest with
  | nil => rfl
  | cons c tail ih =>
    rw [show (c :: tail).flatMap encCellMcts ++ rest
        = encCellMcts c ++ (tail.flatMap encCellMcts ++ rest) by simp]
    simp [parseCellsM, parseCellM_enc, ih]

theorem takeWhile_append_sep (p : Char → Bool) :
    ∀ (xs : List Char), (∀ c ∈ xs, p c = true) → ∀ (y : Char), p y = false →
      ∀ (rest : List Char),
      (xs ++ y :: rest).takeWhile p = xs ∧ (xs ++ y :: rest).dropWhile p = y :: rest := by
  intro xs
  induction xs with
  | nil =>
    intro _ y hy rest
    simp [List.takeWhile, List.dropWhile, hy]
  | cons x tail ih =>
    intro hall y hy rest
    have hx : p x = true := hall x (List.mem_cons_self x tail)
    have htail := ih (fun c hc => hall c (List.mem_cons_of_mem x hc)) y hy rest
    simp only [List.cons_append, List.takeWhile_cons, List.dropWhile_cons, hx]
    simp [htail.1, htail.2]

theorem intToDec_notComma (i : Int) : ∀ c ∈ intToDec i, notComma c = true := by
  intro c hc
  unfold intToDec at hc
  by_cases h : i < 0
  · rw [if_pos h] at hc
    rcases List.mem_cons.mp hc with rfl | hc
    · rfl
    · obtain ⟨d, hd, rfl⟩ := natToDec_chars _ c hc
      simpa [notComma] using digitChar_ne_comma d hd
  · rw [if_neg h] at hc
    obtain ⟨d, hd, rfl⟩ := natToDec_chars _ c hc
    simpa [notComma] using digitChar_ne_comma d hd

theorem parseCount_enc (i : Int) (rest : List Char) :
    parseCount (intToDec i ++ ',' :: rest) = some (i, rest) := by
  obtain ⟨h1, h2⟩ := takeWhile_append_sep notComma (intToDec i) (intToDec_notComma i)
    ',' (by decide) rest
  unfold parseCount
  rw [h1, h2, intFromDec_intToDec]
  simp

theorem parseCounts_enc (is : List Int) (rest : List Char) :
    parseCounts is.length (encCounts is ++ rest) = some (is, rest) := by
  induction is generalizing rest with
  | nil => rfl
  | cons i tail ih =>
    rw [show encCounts (i :: tail) ++ rest = intToDec i ++ ',' :: (encCounts tail ++ rest) by
      simp [encCounts]]
    simp [parseCounts, parseCount_enc, ih]

theorem cellsProj_length (s : GameState) : (cellsProj s).length = 30 := by
  rw [cellsProj, List.length_map]
  rfl

theorem countsFor_length (s : GameState) (q : Player) : (countsFor s q).length = 4 := rfl

/-- Round trip: the MCTS key decodes back to the projections it was written
from. -/
theorem decodeMctsKey_enc (s : GameState) :
    decodeMctsKey (encodeStateKey s) =
      some (playerIdx s.turn, cellsProj s, countsFor s .Bottom, countsFor s .Top) := by
  have hc : parseCellsM 30 ((cellsProj s).flatMap encCellMcts ++
      ('|' :: (encCounts (countsFor s .Bottom) ++ ('|' :: encCounts (countsFor s .Top)))))
      = some (cellsProj s,
          '|' :: (encCounts (countsFor s .Bottom) ++ ('|' :: encCounts (countsFor s .Top)))) := by
    rw [show (30 : Nat) = (cellsProj s).length from (cellsProj_length s).symm]
    exact parseCellsM_enc _ _
  have hcb : parseCounts 4 (encCounts (countsFor s .Bottom) ++
      ('|' :: encCounts (countsFor s .Top)))
      = some (countsFor s .Bottom, '|' :: encCounts (countsFor s .Top)) :=
    parseCounts_enc (countsFor s .Bottom) _
  have hct : parseCounts 4 (encCounts (countsFor s .Top)) = some (countsFor s .Top, []) := by
    have h := parseCounts_enc (countsFor s .Top) []
    simpa using h
  have hd : digitVal (digitChar (playerIdx s.turn)) = playerIdx s.turn :=
    digitVal_digitChar _ (by cases s.turn <;> simp [playerIdx])
  unfold encodeStateKey decodeMctsKey
  simp [hc, hcb, hct, hd, parseBar]

/-! ## Position keys: part_006 `encodeState` / `makeStateKey` -/

def rowsProj (s : GameState) : List (List (Option (Player × PieceType × Bool))) :=
  (List.range 6).map fun y => (List.range 5).map fun x =>
    cellProj (getCell s.board ⟨Int.ofNat x, Int.ofNat y⟩)

/-- Cell encoding of part_006 `encodeState`: '.' or kind digit, owner digit,
promoted flag. -/
def encCellAB : Option (Player × PieceType × Bool) → List Char
  | none => ['.']
  | some (ow, kd, pm) =>
    [digitChar (pieceIdx kd), digitChar (playerIdx ow), if pm then '1' else '0']

/-- The (player, piece type) pairs in the order `encodeState` writes hand
counts: both players, each over `orderedPieceTypes`. -/
def handPairs : List (Player × PieceType) :=
  [(.Bottom, .King), (.Bottom, .Gold), (.Bottom, .Silver), (.Bottom, .Pawn),
   (.Top, .King), (.Top, .Gold), (.Top, .Silver), (.Top, .Pawn)]

def entriesProj (s : GameState) : List (Nat × Nat × Int) :=
  handPairs.map fun qk => (playerIdx qk.1, pieceIdx qk.2, handCount s qk.1 qk.2)

/-- One labelled hand-count entry: player digit, kind digit, decimal count,
comma. -/
def encEntry (e : Nat × Nat × Int) : List Char :=
  digitChar e.1 :: digitChar e.2.1 :: (intToDec e.2.2 ++ [','])

/-- part_006 `encodeState`: six rows of cells with '/' after each row, then a
bar and both players' labelled hand counts. -/
def encodeState (s : GameState) : List Char :=
  ((rowsProj s).flatMap fun row => row.flatMap encCellAB ++ ['/']) ++
    '|' :: (entriesProj s).flatMap encEntry

structure StateKeyAB where
  boardKey : List Char
  turn : Player
  maximizer : Player
deriving DecidableEq, Repr

/-- part_006 `makeStateKey`. -/
def makeStateKey (s : GameState) (maximizer : Player) : StateKeyAB :=
  ⟨encodeState s, s.turn, maximizer⟩

def parseCellAB : List Char → Option (Option (Player × PieceType × Bool) × List Char)
  | '.' :: rest => some (none, rest)
  | k :: o :: pm :: rest =>
    match decPieceChar k, decPlayerChar o, decBoolChar pm with
    | some kd, some ow, some b => some (some (ow, kd, b), rest)
    | _, _, _ => none
  | _ => none

def parseCellsAB : Nat → List Char → Option (List (Option (Player × PieceType × Bool)) × List Char)
  | 0, l => some ([], l)
  | n + 1, l =>
    match parseCellAB l with
    | some (c, l1) =>
      match parseCellsAB n l1 with
      | some (cs, l2) => some (c :: cs, l2)
      | none => none
    | none => none

def parseSlash : List Char → Option (List Char)
  | '/' :: rest => some rest
  | _ => none

def parseRowsAB :
    Nat → List Char → Option (List (List (Option (Player × PieceType × Bool))) × List Char)
  | 0, l => some ([], l)
  | n + 1, l =>
    match parseCellsAB 5 l with
    | some (row, l1) =>
      match parseSlash l1 with
      | some l2 =>
        match parseRowsAB n l2 with
        | some (rows, l3) => some (row :: rows, l3)
        | none => none
      | none => none
    | none => none

def parseEntry : List Char → Option ((Nat × Nat × Int) × List Char)
  | q :: k :: rest =>
    match parseCount rest with
    | some (i, r) => some ((digitVal q, digitVal k, i), r)
    | none => none
  | _ => none

def parseEntries : Nat → List Char → Option (List (Nat × Nat × Int) × List Char)
  | 0, l => some ([], l)
  | n + 1, l =>
    match parseEntry l with
    | some (e, l1) =>
      match parseEntries n l1 with
      | some (es, l2) => some (e :: es, l2)
      | none => none
    | none => none

def decodeABKey (l : List Char) :
    Option (List (List (Option (Player × PieceType × Bool))) × List (Nat × Nat × Int)) :=
  match parseRowsAB 6 l with
  | some (rows, r1) =>
    match parseBar r1 with
    | some r2 =>
      match parseEntries 8 r2 with
      | some (es, r3) => if r3 = [] then some (rows, es) else none
      | none => none
    | none => none
  | none => none

theorem parseCellAB_enc (c : Option (Player × PieceType × Bool)) (rest : List Char) :
    parseCellAB (encCellAB c ++ rest) = some (c, rest) := by
  match c with
  | none =>
    show parseCellAB ('.' :: rest) = some (none, rest)
    simp [parseCellAB]
  | some (ow, kd, pm) =>
    cases ow <;> cases kd <;> cases pm <;>
      simp [encCellAB, parseCellAB, decPlayerChar, decPieceChar, decBoolChar, playerIdx,
        pieceIdx, digitChar]

theorem parseCellsAB_enc (cs : List (Option (Player × PieceType × Bool))) (rest : List Char) :
    parseCellsAB cs.length (cs.flatMap encCellAB ++ rest) = some (cs, rest) := by
  induction cs generalizing rest with
  | nil => rfl
  | cons c tail ih =>
    rw [show (c :: tail).flatMap encCellAB ++ rest
        = encCellAB c ++ (tail.flatMap encCellAB ++ rest) by simp]
    simp [parseCellsAB, parseCellAB_enc, ih]

theorem parseRowsAB_enc (rows : List (List (Option (Player × PieceType × Bool))))
    (hlen : ∀ r ∈ rows, r.length = 5) (rest : List Char) :
    parseRowsAB rows.length
      ((rows.flatMap fun row => row.flatMap encCellAB ++ ['/']) ++ rest) = some (rows, rest) := by
  induction rows generalizing rest with
  | nil => rfl
  | cons row tail ih =>
    rw [show (((row :: tail).flatMap fun r => r.flatMap encCellAB ++ ['/']) ++ rest)
        = row.flatMap encCellAB ++
            ('/' :: ((tail.flatMap fun r => r.flatMap encCellAB ++ ['/']) ++ rest)) by simp]
    have hrow : row.length = 5 := hlen row (List.mem_cons_self row tail)
    have hcell := parseCellsAB_enc row
      ('/' :: ((tail.flatMap fun r => r.flatMap encCellAB ++ ['/']) ++ rest))
    rw [hrow] at hcell
    have htail := ih (fun r hr => hlen r (List.mem_cons_of_mem row hr)) rest
    simp [parseRowsAB, hcell, parseSlash, htail]

theorem parseEntry_enc (a b : Nat) (ha : a < 10) (hb : b < 10) (i : Int) (rest : List Char) :
    parseEntry (encEntry (a, b, i) ++ rest) = some ((a, b, i), rest) := by
  rw [show encEntry (a, b, i) ++ rest
      = digitChar a :: digitChar b :: (intToDec i ++ ',' :: rest) by simp [encEntry]]
  simp [parseEntry, parseCount_enc, digitVal_digitChar a ha, digitVal_digitChar b hb]

theorem parseEntries_enc (es : List (Nat × Nat × Int))
    (hd : ∀ e ∈ es, e.1 < 10 ∧ e.2.1 < 10) (rest : List Char) :
    parseEntries es.length (es.flatMap encEntry ++ rest) = some (es, rest) := by
  induction es generalizing rest with
  | nil => rfl
  | cons e tail ih =>
    rw [show (e :: tail).flatMap encEntry ++ rest
        = encEntry e ++ (tail.flatMap encEntry ++ rest) by simp]
    obtain ⟨ha, hb⟩ := hd e (List.mem_cons_self e tail)
    have he : parseEntry (encEntry e ++ (tail.flatMap encEntry ++ rest))
        = some (e, tail.flatMap encEntry ++ rest) := by
      obtain ⟨a, b, i⟩ := e
      exact parseEntry_enc a b ha hb i _
    have htail := ih (fun x hx => hd x (List.mem_cons_of_mem e hx)) rest
    simp [parseEntries, he, htail]

/-- Round trip: the alpha-beta board key decodes back to the projections it was
written from. -/
theorem decodeABKey_enc (s : GameState) :
    decodeABKey (encodeState s) = some (rowsProj s, entriesProj s) := by
  have hrows : ∀ r ∈ rowsProj s, r.length = 5 := by
    intro r hr
    rw [rowsProj] at hr
    obtain ⟨y, _, rfl⟩ := List.mem_map.mp hr
    simp
  have h1 := parseRowsAB_enc (rowsProj s) hrows ('|' :: (entriesProj s).flatMap encEntry)
  rw [show (rowsProj s).length = 6 by simp [rowsProj]] at h1
  have hents : ∀ e ∈ entriesProj s, e.1 < 10 ∧ e.2.1 < 10 := by
    intro e he
    rw [entriesProj] at he
    obtain ⟨⟨q, k⟩, _, rfl⟩ := List.mem_map.mp he
    cases q <;> cases k <;> simp [playerIdx, pieceIdx]
  have h2 := parseEntries_enc (entriesProj s) hents []
  rw [show (entriesProj s).length = 8 from rfl, List.append_nil] at h2
  unfold encodeState decodeABKey
  simp [h1, h2, parseBar]

/-! ## C6: key injectivity up to structural position identity -/

theorem listMap_eq_pointwise {α β : Type} (f g : α → β) :
    ∀ (l : List α), l.map f = l.map g → ∀ a ∈ l, f a = g a := by
  intro l
  induction l with
  | nil => intro _ a ha; exact absurd ha (List.not_mem_nil a)
  | cons x xs ih =>
    intro h a ha
    simp only [List.map_cons, List.cons.injEq] at h
    rcases List.mem_cons.mp ha with rfl | ha'
    · exact h.1
    · exact ih h.2 a ha'

theorem listMap_congr_pw {α β : Type} (f g : α → β) :
    ∀ (l : List α), (∀ a ∈ l, f a = g a) → l.map f = l.map g := by
  intro l
  induction l with
  | nil => intro _; rfl
  | cons x xs ih =>
    intro h
    simp only [List.map_cons, List.cons.injEq]
    exact ⟨h x (List.mem_cons_self x xs), ih fun a ha => h a (List.mem_cons_of_mem x ha)⟩

theorem coordList_inside : ∀ c ∈ coordList, insideBoard c = true := by
  have h : coordList.all insideBoard = true := by decide
  exact fun c hc => List.all_eq_true.mp h c hc

theorem cellsProj_eq_iff (s t : GameState) :
    cellsProj s = cellsProj t ↔
      ∀ c, insideBoard c = true →
        cellProj (getCell s.board c) = cellProj (getCell t.board c) := by
  constructor
  · intro h c hc
    exact listMap_eq_pointwise _ _ coordList h c (mem_coordList_of_inside c hc)
  · intro h
    exact listMap_congr_pw _ _ coordList fun c hc => h c (coordList_inside c hc)

theorem rowsProj_eq_iff (s t : GameState) :
    rowsProj s = rowsProj t ↔
      ∀ c, insideBoard c = true →
        cellProj (getCell s.board c) = cellProj (getCell t.board c) := by
  constructor
  · intro h c hc
    simp only [insideBoard, BoardCols, BoardRows, Bool.and_eq_true, decide_eq_true_eq] at hc
    obtain ⟨⟨⟨hx0, hx5⟩, hy0⟩, hy6⟩ := hc
    have hy : c.y.toNat ∈ List.range 6 := by rw [List.mem_range]; omega
    have hrow := listMap_eq_pointwise _ _ _ h c.y.toNat hy
    have hx : c.x.toNat ∈ List.range 5 := by rw [List.mem_range]; omega
    have hcell := listMap_eq_pointwise _ _ _ hrow c.x.toNat hx
    have hc' : (⟨Int.ofNat c.x.toNat, Int.ofNat c.y.toNat⟩ : Coord) = c := by
      have e1 : Int.ofNat c.x.toNat = c.x := Int.toNat_of_nonneg hx0
      have e2 : Int.ofNat c.y.toNat = c.y := Int.toNat_of_nonneg hy0
      rw [e1, e2]
    rw [hc'] at hcell
    exact hcell
  · intro h
    refine listMap_congr_pw _ _ _ fun y hy => ?_
    refine listMap_congr_pw _ _ _ fun x hx => ?_
    rw [List.mem_range] at hy hx
    refine h _ ?_
    simp only [insideBoard, BoardCols, BoardRows, Bool.and_eq_true, decide_eq_true_eq,
      Int.ofNat_eq_coe]
    refine ⟨⟨⟨?_, ?_⟩, ?_⟩, ?_⟩ <;> omega

theorem entriesProj_eq_iff (s t : GameState) :
    entriesProj s = entriesProj t ↔ ∀ q k, handCount s q k = handCount t q k := by
  constructor
  · intro h q k
    have hm : (q, k) ∈ handPairs := by cases q <;> cases k <;> simp [handPairs]
    have he := listMap_eq_pointwise _ _ handPairs h (q, k) hm
    simpa using congrArg (fun e => e.2.2) he
  · intro h
    refine listMap_congr_pw _ _ handPairs fun qk _ => ?_
    rw [h qk.1 qk.2]

theorem countsFor_eq_of_hands (s t : GameState)
    (h : ∀ q k, handCount s q k = handCount t q k) (q : Player) :
    countsFor s q = countsFor t q := by
  simp [countsFor, h]

theorem hands_eq_of_countsFor (s t : GameState)
    (hb : countsFor s .Bottom = countsFor t .Bottom)
    (ht : countsFor s .Top = countsFor t .Top) :
    ∀ q k, handCount s q k = handCount t q k := by
  simp only [countsFor, List.cons.injEq, and_true] at hb ht
  intro q k
  cases q <;> cases k <;> tauto

theorem playerIdx_inj (a b : Player) (h : playerIdx a = playerIdx b) : a = b := by
  cases a <;> cases b <;> simp [playerIdx] at h ⊢

/-- Two states describe the same position: identical cell contents on every
board square, identical hand counts, identical side to move. -/
def SamePosition (s t : GameState) : Prop :=
  (∀ c, insideBoard c = true →
    cellProj (getCell s.board c) = cellProj (getCell t.board c)) ∧
  (∀ q k, handCount s q k = handCount t q k) ∧
  s.turn = t.turn

/-- C6: the knowledge/transposition keys are injective up to structural
position identity: the MCTS `encodeStateKey`s of two states agree exactly when
every board cell, every hand count and the side to move agree, and likewise
the alpha-beta `makeStateKey`s for any fixed maximizer. -/
theorem C6_state_keys_injective (s t : GameState) :
    (encodeStateKey s = encodeStateKey t ↔ SamePosition s t) ∧
    (∀ mx : Player, makeStateKey s mx = makeStateKey t mx ↔ SamePosition s t) := by
  constructor
  · constructor
    · intro h
      have hd : some (playerIdx s.turn, cellsProj s, countsFor s .Bottom, countsFor s .Top)
          = some (playerIdx t.turn, cellsProj t, countsFor t .Bottom, countsFor t .Top) := by
        rw [← decodeMctsKey_enc s, ← decodeMctsKey_enc t, h]
      simp only [Option.some.injEq, Prod.mk.injEq] at hd
      obtain ⟨hturn, hcells, hcb, hct⟩ := hd
      exact ⟨(cellsProj_eq_iff s t).mp hcells, hands_eq_of_countsFor s t hcb hct,
        playerIdx_inj _ _ hturn⟩
    · rintro ⟨hcell, hhand, hturn⟩
      unfold encodeStateKey
      rw [hturn, (cellsProj_eq_iff s t).mpr hcell, countsFor_eq_of_hands s t hhand,
        countsFor_eq_of_hands s t hhand]
  · intro mx
    constructor
    · intro h
      have h1 : encodeState s = encodeState t := congrArg StateKeyAB.boardKey h
      have h2 : s.turn = t.turn := congrArg StateKeyAB.turn h
      have hd : some (rowsProj s, entriesProj s) = some (rowsProj t, entriesProj t) := by
        rw [← decodeABKey_enc s, ← decodeABKey_enc t, h1]
      simp only [Option.some.injEq, Prod.mk.injEq] at hd
      exact ⟨(rowsProj_eq_iff s t).mp hd.1, (entriesProj_eq_iff s t).mp hd.2, h2⟩
    · rintro ⟨hcell, hhand, hturn⟩
      unfold makeStateKey
      rw [hturn]
      have hE : encodeState s = encodeState t := by
        unfold encodeState
        rw [(rowsProj_eq_iff s t).mpr hcell, (entriesProj_eq_iff s t).mpr hhand]
      rw [hE]

/-! ## C7: persistence write discipline (temp file + rename vs in-place write)

The file-system side effects of the two save paths are modelled as operation
traces.  `filepath.Dir` is modelled for slash-separated paths. -/

inductive FSOp where
  | mkdirAll (dir : List Char)
  | create (path : List Char)
  | writeFile (path : List Char)
  | rename (src dst : List Char)
deriving DecidableEq, Repr

/-- `filepath.Dir` for plain relative slash paths. -/
def dirOf (p : List Char) : List Char :=
  let r := (p.reverse.dropWhile fun c => !(c = '/')).drop 1
  if r = [] then ['.'] else r.reverse

def tmpSuffix : List Char := ['.', 't', 'm', 'p']

/-- File-system trace of `TDUCBEngine.SaveIfNeeded` on its success path:
make the directory, create and fill `storagePath + ".tmp"` (via
`writeKnowledge`, which `os.Create`s that path), then rename it over the
final path. -/
def tdSaveOps (storagePath : List Char) (dirty : Bool) : List FSOp :=
  if !dirty || storagePath = [] then []
  else
    [FSOp.mkdirAll (dirOf storagePath),
     FSOp.create (storagePath ++ tmpSuffix),
     FSOp.rename (storagePath ++ tmpSuffix) storagePath]

/-- File-system trace of `MCTSEngine.saveLocked` on its success path: make the
directory, then `os.WriteFile` the final path directly. -/
def mctsSaveOps (storagePath : List Char) (dirty : Bool) : List FSOp :=
  if storagePath = [] || !dirty then []
  else [FSOp.mkdirAll (dirOf storagePath), FSOp.writeFile storagePath]

/-- Does the trace open the final path itself for writing (create or
WriteFile), i.e. overwrite it in place rather than only renaming onto it? -/
def writesInPlace (final : List Char) (ops : List FSOp) : Bool :=
  ops.any fun op =>
    match op with
    | FSOp.create p => decide (p = final)
    | FSOp.writeFile p => decide (p = final)
    | _ => false

def isRenameOp : FSOp → Bool
  | FSOp.rename _ _ => true
  | _ => false

theorem append_tmpSuffix_ne (p : List Char) : p ++ tmpSuffix ≠ p := by
  intro h
  have := congrArg List.length h
  simp [tmpSuffix] at this

/-- The MCTS save path never stages through a temporary file: on a dirty save
it opens the final storage path for writing directly and performs no rename. -/
theorem C7_counterexample :
    writesInPlace ['a'] (mctsSaveOps ['a'] true) = true ∧
    (mctsSaveOps ['a'] true).all (fun op => !(isRenameOp op)) = true ∧
    mctsSaveOps ['a'] true ≠ [] := by
  refine ⟨by decide, by decide, by decide⟩

/-- C7 (amended): only the TD-UCB engine's SaveIfNeeded follows the
write-temporary-then-rename discipline — its trace never opens the final path
in place and, whenever it writes at all, renames the temporary onto the final
path; the MCTS engine's saveLocked instead overwrites the final path in place
with os.WriteFile whenever it writes. -/
theorem C7_save_write_discipline (path : List Char) (dirty : Bool) :
    writesInPlace path (tdSaveOps path dirty) = false ∧
    (dirty = true → path ≠ [] →
      FSOp.rename (path ++ tmpSuffix) path ∈ tdSaveOps path dirty) ∧
    (dirty = true → path ≠ [] →
      writesInPlace path (mctsSaveOps path dirty) = true) := by
  refine ⟨?_, ?_, ?_⟩
  · cases dirty with
    | false => simp [tdSaveOps, writesInPlace]
    | true =>
      by_cases hp : path = []
      · simp [tdSaveOps, hp, writesInPlace]
      · have hne : ¬(path ++ tmpSuffix = path) := append_tmpSuffix_ne path
        simp [tdSaveOps, hp, writesInPlace, hne]
  · intro hd hp
    simp [tdSaveOps, hd, hp]
  · intro hd hp
    simp [mctsSaveOps, hd, hp, writesInPlace]

theorem C7_witness :
    writesInPlace ['a'] (tdSaveOps ['a'] true) = false ∧
    (true = true → (['a'] : List Char) ≠ [] →
      FSOp.rename (['a'] ++ tmpSuffix) ['a'] ∈ tdSaveOps ['a'] true) ∧
    (true = true → (['a'] : List Char) ≠ [] →
      writesInPlace ['a'] (mctsSaveOps ['a'] true) = true) :=
  C7_save_write_discipline ['a'] true

/-! ## C9: TD-UCB persistence round trip for state values

float64 values are modelled as rationals; `%.8f` formatting rounds to the
nearest multiple of 1e-8.  A written state record (per `writeKnowledge`) is
`"S" ++ "\t" ++ key ++ "\t" ++ format8 value`; `parseRecordS` models the
effect of `parseRecord` on `e.values` for such a line. -/

def isDigitCh (c : Char) : Bool :=
  (['0', '1', '2', '3', '4', '5', '6', '7', '8', '9'] : List Char).contains c

/-- The integer `%.8f` rounds `v` to, in units of 1e-8. -/
def round8 (v : ℚ) : ℤ := round (v * 100000000)

/-- Eight-digit zero-padded decimal of `m < 10^8`. -/
def pad8 (m : Nat) : List Char :=
  List.replicate (8 - (natToDec m).length) '0' ++ natToDec m

/-- `fmt %.8f` on a rational. -/
def format8 (v : ℚ) : List Char :=
  if round8 v < 0 then
    '-' :: (natToDec ((round8 v).natAbs / 100000000) ++
      '.' :: pad8 ((round8 v).natAbs % 100000000))
  else
    natToDec ((round8 v).toNat / 100000000) ++ '.' :: pad8 ((round8 v).toNat % 100000000)

/-- `strconv.ParseFloat` on the fixed-point fragment `digits[.digits]`. -/
def parseUnsignedQ (l : List Char) : Option ℚ :=
  if l.takeWhile isDigitCh = [] then none
  else
    match l.dropWhile isDigitCh with
    | [] => some (natFromDec (l.takeWhile isDigitCh))
    | '.' :: fr =>
      if fr = [] ∨ ¬(fr.all isDigitCh = true) then none
      else some ((natFromDec (l.takeWhile isDigitCh) : ℚ) + (natFromDec fr : ℚ) / 10 ^ fr.length)
    | _ => none

def parseFixedQ (l : List Char) : Option ℚ :=
  if l.take 1 = ['-'] then (parseUnsignedQ (l.drop 1)).map Neg.neg
  else parseUnsignedQ l

theorem parseFixedQ_neg (l : List Char) :
    parseFixedQ ('-' :: l) = (parseUnsignedQ l).map Neg.neg := by
  simp [parseFixedQ]

theorem parseFixedQ_head_ne (c : Char) (l : List Char) (h : ¬(c = '-')) :
    parseFixedQ (c :: l) = parseUnsignedQ (c :: l) := by
  simp [parseFixedQ, h]

theorem natToDec_isDigit (n : Nat) : ∀ c ∈ natToDec n, isDigitCh c = true := by
  intro c hc
  obtain ⟨d, hd, rfl⟩ := natToDec_chars n c hc
  interval_cases d <;> decide

theorem pad8_isDigit (r : Nat) : ∀ c ∈ pad8 r, isDigitCh c = true := by
  intro c hc
  rcases List.mem_append.mp hc with h | h
  · rw [List.eq_of_mem_replicate h]; decide
  · exact natToDec_isDigit r c h

theorem natToDec_len_le (k n : Nat) (hk : 0 < k) (h : n < 10 ^ k) :
    (natToDec n).length ≤ k := by
  by_cases h0 : n = 0
  · subst h0; simpa [natToDec] using hk
  · rw [natToDec, if_neg h0]
    simp only [List.length_map, List.length_reverse]
    rw [Nat.digits_len 10 n (by norm_num) h0]
    have hlog := Nat.log_lt_of_lt_pow h0 h
    omega

theorem pad8_length (r : Nat) (hr : r < 100000000) : (pad8 r).length = 8 := by
  have hlen : (natToDec r).length ≤ 8 := natToDec_len_le 8 r (by norm_num) (by norm_num; omega)
  simp only [pad8, List.length_append, List.length_replicate]
  omega

theorem natFromDec_replicate_zero (z : Nat) (l : List Char) :
    natFromDec (List.replicate z '0' ++ l) = natFromDec l := by
  induction z with
  | zero => simp
  | succ z ih =>
    rw [List.replicate_succ, List.cons_append]
    show List.foldl _ (0 * 10 + digitVal '0') _ = _
    have h0 : (0 : Nat) * 10 + digitVal '0' = 0 := by decide
    rw [h0]
    exact ih

theorem natFromDec_pad8 (r : Nat) : natFromDec (pad8 r) = r := by
  rw [pad8, natFromDec_replicate_zero, natFromDec_natToDec]

theorem parseUnsignedQ_dec (q r : Nat) (hr : r < 100000000) :
    parseUnsignedQ (natToDec q ++ '.' :: pad8 r)
      = some ((q : ℚ) + (r : ℚ) / 100000000) := by
  obtain ⟨h1, h2⟩ := takeWhile_append_sep isDigitCh (natToDec q) (natToDec_isDigit q)
    '.' (by decide) (pad8 r)
  unfold parseUnsignedQ
  rw [h1, h2, if_neg (natToDec_ne_nil q)]
  have hpne : ¬(pad8 r = []) := by
    intro h
    have hl := congrArg List.length h
    rw [pad8_length r hr] at hl
    simp at hl
  have hpall : (pad8 r).all isDigitCh = true := List.all_eq_true.mpr (pad8_isDigit r)
  simp only [hpne, hpall, not_true_eq_false, or_self, if_false, false_or]
  rw [natFromDec_natToDec, natFromDec_pad8, pad8_length r hr]
  norm_num

theorem cast_divmod_q (a : Nat) :
    ((a / 100000000 : Nat) : ℚ) + ((a % 100000000 : Nat) : ℚ) / 100000000
      = (a : ℚ) / 100000000 := by
  have hdm : 100000000 * (a / 100000000) + a % 100000000 = a := Nat.div_add_mod a 100000000
  have hdmQ : (100000000 : ℚ) * ((a / 100000000 : Nat) : ℚ) + ((a % 100000000 : Nat) : ℚ)
      = (a : ℚ) := by
    exact_mod_cast congrArg (fun m : Nat => (m : ℚ)) hdm
  field_simp
  linarith

theorem parseFixedQ_format8 (v : ℚ) :
    parseFixedQ (format8 v) = some ((round8 v : ℚ) / 100000000) := by
  unfold format8
  by_cases hn : round8 v < 0
  · rw [if_pos hn]
    have hmod : (round8 v).natAbs % 100000000 < 100000000 := Nat.mod_lt _ (by norm_num)
    rw [parseFixedQ_neg, parseUnsignedQ_dec _ _ hmod, Option.map_some']
    congr 1
    rw [cast_divmod_q]
    have h1 : round8 v = -(((round8 v).natAbs : Nat) : ℤ) := by omega
    have h1Q : ((round8 v : ℤ) : ℚ) = -(((round8 v).natAbs : Nat) : ℚ) := by
      exact_mod_cast congrArg (fun z : ℤ => (z : ℚ)) h1
    rw [h1Q, neg_div]
  · rw [if_neg hn]
    have hmod : (round8 v).toNat % 100000000 < 100000000 := Nat.mod_lt _ (by norm_num)
    obtain ⟨c, t, hct⟩ := List.exists_cons_of_ne_nil (natToDec_ne_nil ((round8 v).toNat / 100000000))
    have hcd : isDigitCh c = true := by
      refine natToDec_isDigit ((round8 v).toNat / 100000000) c ?_
      rw [hct]
      exact List.mem_cons_self c t
    have hcm : ¬(c = '-') := by
      intro h
      rw [h] at hcd
      exact absurd hcd (by decide)
    rw [hct, List.cons_append, parseFixedQ_head_ne c _ hcm, ← List.cons_append, ← hct,
      parseUnsignedQ_dec _ _ hmod]
    congr 1
    rw [cast_divmod_q]
    have h1 : (((round8 v).toNat : Nat) : ℤ) = round8 v := Int.toNat_of_nonneg (not_lt.mp hn)
    have h1Q : (((round8 v).toNat : Nat) : ℚ) = ((round8 v : ℤ) : ℚ) := by
      exact_mod_cast congrArg (fun z : ℤ => (z : ℚ)) h1
    rw [h1Q]

theorem round8_close (v : ℚ) : |v - (round8 v : ℚ) / 100000000| ≤ 1 / 200000000 := by
  have h := abs_sub_round (v * 100000000)
  have hrw : v - (round8 v : ℚ) / 100000000
      = (v * 100000000 - (round (v * 100000000) : ℚ)) / 100000000 := by
    rw [round8]; ring
  rw [hrw, abs_div, abs_of_pos (by norm_num : (0 : ℚ) < 100000000)]
  rw [div_le_div_iff₀ (by norm_num) (by norm_num)]
  nlinarith [h]

/-! Record lines: Go `strings.Split` on tab. -/

def splitSep (sep : Char) : List Char → List (List Char)
  | [] => [[]]
  | c :: rest =>
    if c = sep then [] :: splitSep sep rest
    else (c :: (splitSep sep rest).headI) :: (splitSep sep rest).tail

theorem splitSep_ne_nil (sep : Char) (l : List Char) : splitSep sep l ≠ [] := by
  cases l with
  | nil => simp [splitSep]
  | cons c rest =>
    rw [splitSep]
    by_cases h : c = sep <;> simp [h]

theorem splitSep_sep_cons (sep : Char) (l : List Char) :
    splitSep sep (sep :: l) = [] :: splitSep sep l := by
  rw [splitSep, if_pos rfl]

theorem splitSep_nosep (sep : Char) (xs : List Char) (hxs : ∀ c ∈ xs, ¬(c = sep)) :
    ∀ l, splitSep sep (xs ++ l)
      = (xs ++ (splitSep sep l).headI) :: (splitSep sep l).tail := by
  induction xs with
  | nil =>
    intro l
    simp only [List.nil_append]
    obtain ⟨h, t, hsp⟩ := List.exists_cons_of_ne_nil (splitSep_ne_nil sep l)
    rw [hsp]
    rfl
  | cons x xs ih =>
    intro l
    rw [List.cons_append, splitSep,
      if_neg (hxs x (List.mem_cons_self x xs)),
      ih (fun c hc => hxs c (List.mem_cons_of_mem x hc)) l]
    simp

/-- The state-record line written by `writeKnowledge` for one entry of
`e.values` (without the trailing newline, which the loading scanner strips). -/
def tdStateLine (key : List Char) (v : ℚ) : List Char :=
  'S' :: '\t' :: (key ++ '\t' :: format8 v)

/-- Effect of `parseRecord` on `e.values` for a state record: tab-split the
line, require exactly three fields headed "S", parse the value. -/
def parseRecordS (line : List Char) : Option (List Char × ℚ) :=
  match splitSep '\t' line with
  | [k0, key, val] =>
    if k0 = ['S'] then (parseFixedQ val).map fun v => (key, v) else none
  | _ => none

theorem pad8_no_tab (r : Nat) : ∀ c ∈ pad8 r, ¬(c = '\t') := by
  intro c hc
  rcases List.mem_append.mp hc with h | h
  · rw [List.eq_of_mem_replicate h]; decide
  · obtain ⟨d, hd, rfl⟩ := natToDec_chars _ c h
    exact digitChar_ne_tab d hd

theorem format8_no_tab (v : ℚ) : ∀ c ∈ format8 v, ¬(c = '\t') := by
  intro c hc
  unfold format8 at hc
  by_cases hn : round8 v < 0
  · rw [if_pos hn] at hc
    rcases List.mem_cons.mp hc with rfl | hc
    · decide
    · rcases List.mem_append.mp hc with h | h
      · obtain ⟨d, hd, rfl⟩ := natToDec_chars _ c h
        exact digitChar_ne_tab d hd
      · rcases List.mem_cons.mp h with rfl | h
        · decide
        · exact pad8_no_tab _ c h
  · rw [if_neg hn] at hc
    rcases List.mem_append.mp hc with h | h
    · obtain ⟨d, hd, rfl⟩ := natToDec_chars _ c h
      exact digitChar_ne_tab d hd
    · rcases List.mem_cons.mp h with rfl | h
      · decide
      · exact pad8_no_tab _ c h

theorem splitSep_tdStateLine (key : List Char) (hk : ∀ c ∈ key, ¬(c = '\t')) (v : ℚ) :
    splitSep '\t' (tdStateLine key v) = [['S'], key, format8 v] := by
  have hsplit8 : splitSep '\t' (format8 v) = [format8 v] := by
    have h := splitSep_nosep '\t' (format8 v) (format8_no_tab v) []
    simpa [splitSep] using h
  have hkey : splitSep '\t' (key ++ '\t' :: format8 v)
      = (key ++ ([] : List Char)) :: splitSep '\t' (format8 v) := by
    rw [show ('\t' :: format8 v) = [('\t' : Char)] ++ format8 v by simp] at *
    have h := splitSep_nosep '\t' key hk ([('\t' : Char)] ++ format8 v)
    rw [h, show (([('\t' : Char)] ++ format8 v) : List Char) = '\t' :: format8 v by simp,
      splitSep_sep_cons]
    simp
  rw [tdStateLine, show ('S' :: '\t' :: (key ++ '\t' :: format8 v))
      = [('S' : Char)] ++ ('\t' :: (key ++ '\t' :: format8 v)) by simp]
  rw [splitSep_nosep '\t' [('S' : Char)] (by decide) _, splitSep_sep_cons, hkey, hsplit8]
  simp

theorem parseRecordS_tdStateLine (key : List Char) (hk : ∀ c ∈ key, ¬(c = '\t')) (v : ℚ) :
    parseRecordS (tdStateLine key v) = some (key, (round8 v : ℚ) / 100000000) := by
  unfold parseRecordS
  rw [splitSep_tdStateLine key hk v]
  simp [parseFixedQ_format8]

/-- A value whose save/load round trip misses by more than 1e-9: 4e-9 is
formatted as 0.00000000 and loads back as 0. -/
theorem C9_counterexample :
    ∃ w : ℚ, parseRecordS (tdStateLine ['k'] (1 / 250000000)) = some (['k'], w) ∧
      |1 / 250000000 - w| > 1 / 1000000000 := by
  refine ⟨(round8 (1 / 250000000) : ℚ) / 100000000,
    parseRecordS_tdStateLine ['k'] (by decide) _, ?_⟩
  have h0 : round8 (1 / 250000000) = 0 := by
    rw [round8]
    norm_num [round_eq]
  rw [h0]
  have hz : ((0 : ℤ) : ℚ) / 100000000 = 0 := by norm_num
  rw [hz, sub_zero, abs_of_pos (by norm_num : (0 : ℚ) < 1 / 250000000)]
  norm_num

/-- C9 (amended): for every tab-free state key and every recorded value,
writing the state record with `%.8f` and re-parsing it reproduces the value
within the quantization error 5e-9 (= 1/200000000), not within 1e-9. -/
theorem C9_td_save_load_value (key : List Char) (hk : ∀ c ∈ key, ¬(c = '\t')) (v : ℚ) :
    ∃ w : ℚ, parseRecordS (tdStateLine key v) = some (key, w) ∧
      |v - w| ≤ 1 / 200000000 :=
  ⟨(round8 v : ℚ) / 100000000, parseRecordS_tdStateLine key hk v, round8_close v⟩

theorem C9_witness :
    (∀ c ∈ (['k'] : List Char), ¬(c = '\t')) ∧
    ∃ w : ℚ, parseRecordS (tdStateLine ['k'] (1 / 4)) = some (['k'], w) ∧
      |1 / 4 - w| ≤ 1 / 200000000 :=
  ⟨by decide, C9_td_save_load_value ['k'] (by decide) (1 / 4)⟩

/-! ## C4: the engine contract and the depth-0 alpha-beta engine

part_006's `AlphaBetaEngine` embedded: `evaluate`, the transposition table (an
association list where the most recent binding wins, modelling the Go map),
`search`, and `NextMove` with a fresh table as built by `NewAlphaBetaEngine`.
Hand-map iteration in `evaluate` is summed over all four piece kinds; absent
keys read as count 0 and contribute nothing, as in Go. -/

def pieceScores : PieceType → Int
  | .King => 1000
  | .Gold => 70
  | .Silver => 50
  | .Pawn => 10

/-- scoring.go `pieceValue`. -/
def pieceValue (p : Piece) : Int :=
  if ((decide (p.kind = .Silver) || decide (p.kind = .Pawn)) && p.promoted) = true then
    pieceScores .Gold
  else pieceScores p.kind

def checkmateScore : Int := 100000

def infiniteScore : Int := 1000000000

/-- part_006 `AlphaBetaEngine.evaluate`. -/
def evaluate (s : GameState) (maximizer : Player) (depth : Int) : Int :=
  if IsCheckmate s maximizer = true then -checkmateScore - depth
  else if IsCheckmate s maximizer.Opponent = true then checkmateScore + depth
  else
    let s0 := coordList.foldl (fun acc c =>
      let p := getCell s.board c
      if p.present = true then
        (if p.owner = maximizer then acc + pieceValue p else acc - pieceValue p)
      else acc) 0
    let s1 := pieceTypeList.foldl
      (fun acc k => acc + pieceScores k * handCount s maximizer k) s0
    let s2 := pieceTypeList.foldl
      (fun acc k => acc - pieceScores k * handCount s maximizer.Opponent k) s1
    let s3 := if InCheck s maximizer = true then s2 - 5 else s2
    if InCheck s maximizer.Opponent = true then s3 + 5 else s3

inductive BoundType where
  | bexact
  | blower
  | bupper
deriving DecidableEq, Repr

structure TTEntry where
  tdepth : Nat
  score : Int
  move : Option Move
  bound : BoundType
deriving DecidableEq, Repr

def ttLookup (t : List (StateKeyAB × TTEntry)) (k : StateKeyAB) : Option TTEntry :=
  (t.find? fun kv => decide (kv.1 = k)).map fun kv => kv.2

def ttStore (t : List (StateKeyAB × TTEntry)) (k : StateKeyAB) (e : TTEntry) :
    List (StateKeyAB × TTEntry) :=
  (k, e) :: t

/-- part_006 `determineBound`. -/
def determineBound (score alphaOrig betaOrig : Int) : BoundType :=
  if score ≤ alphaOrig then .bupper
  else if betaOrig ≤ score then .blower
  else .bexact

/-- The transposition-table probe at the top of `search`: either an early
return (score and stored move) or possibly tightened bounds. -/
def ttCheck (table : List (StateKeyAB × TTEntry)) (key : StateKeyAB) (depth : Nat)
    (alpha beta : Int) : Option (Int × Option Move) × Int × Int :=
  match ttLookup table key with
  | none => (none, alpha, beta)
  | some entry =>
    if depth ≤ entry.tdepth then
      match entry.bound with
      | .bexact => (some (entry.score, entry.move), alpha, beta)
      | .blower =>
        let alpha1 := if alpha < entry.score then entry.score else alpha
        if beta ≤ alpha1 then (some (entry.score, entry.move), alpha1, beta)
        else (none, alpha1, beta)
      | .bupper =>
        let beta1 := if entry.score < beta then entry.score else beta
        if beta1 ≤ alpha then (some (entry.score, entry.move), alpha, beta1)
        else (none, alpha, beta1)
    else (none, alpha, beta)

/-- part_006 `AlphaBetaEngine.search`, with the remaining depth as a natural
number.  Returns (score, chosen move, updated table). -/
def searchAB : Nat → GameState → Int → Int → Player →
    List (StateKeyAB × TTEntry) → (Int × Option Move × List (StateKeyAB × TTEntry))
  | 0, s, alpha, beta, maximizer, table =>
    match ttCheck table (makeStateKey s maximizer) 0 alpha beta with
    | (some (sc, mv), _, _) => (sc, mv, table)
    | (none, _, _) =>
      let score := evaluate s maximizer 0
      (score, none,
        ttStore table (makeStateKey s maximizer) ⟨0, score, none, .bexact⟩)
  | Nat.succ n, s, alpha, beta, maximizer, table =>
    match ttCheck table (makeStateKey s maximizer) (n + 1) alpha beta with
    | (some (sc, mv), _, _) => (sc, mv, table)
    | (none, alpha1, beta1) =>
      let legal := GenerateLegalMoves s s.turn
      if legal = [] then
        let score := evaluate s maximizer ((n : Int) + 1)
        (score, none,
          ttStore table (makeStateKey s maximizer) ⟨n + 1, score, none, .bexact⟩)
      else if s.turn = maximizer then
        let res := legal.foldl (fun st mv =>
          if st.2.2.2.2 = true then st
          else
            let next := { ApplyMove (CloneState s) mv with turn := s.turn.Opponent }
            let r := searchAB n next st.2.2.1 beta1 maximizer st.2.2.2.1
            let best1 := if st.1 < r.1 then r.1 else st.1
            let chosen1 := if st.1 < r.1 then some mv else st.2.1
            let alpha2 := if st.2.2.1 < best1 then best1 else st.2.2.1
            (best1, chosen1, alpha2, r.2.2, decide (beta1 ≤ alpha2)))
          ((-infiniteScore : Int), (none : Option Move), alpha1, table, false)
        (res.1, res.2.1,
          ttStore res.2.2.2.1 (makeStateKey s maximizer)
            ⟨n + 1, res.1, res.2.1, determineBound res.1 alpha beta⟩)
      else
        let res := legal.foldl (fun st mv =>
          if st.2.2.2.2 = true then st
          else
            let next := { ApplyMove (CloneState s) mv with turn := s.turn.Opponent }
            let r := searchAB n next alpha1 st.2.2.1 maximizer st.2.2.2.1
            let best1 := if r.1 < st.1 then r.1 else st.1
            let chosen1 := if r.1 < st.1 then some mv else st.2.1
            let beta2 := if best1 < st.2.2.1 then best1 else st.2.2.1
            (best1, chosen1, beta2, r.2.2, decide (beta2 ≤ alpha1)))
          ((infiniteScore : Int), (none : Option Move), beta1, table, false)
        (res.1, res.2.1,
          ttStore res.2.2.2.1 (makeStateKey s maximizer)
            ⟨n + 1, res.1, res.2.1, determineBound res.1 alpha beta⟩)

/-- part_006 `AlphaBetaEngine.NextMove` for a freshly constructed engine
(empty transposition table, as after `NewAlphaBetaEngine`). -/
def alphaBetaNextMove (depth : Nat) (s : GameState) : Except String Move :=
  if GenerateLegalMoves s s.turn = [] then Except.error "no legal moves to play"
  else
    match (searchAB depth s (-infiniteScore) infiniteScore s.turn []).2.1 with
    | none => Except.error "failed to find a move"
    | some m => Except.ok m

/-- C4: divergence from the engine contract: at the initial position the side
to move has legal moves, yet the depth-0 alpha-beta engine's NextMove errors
("failed to find a move") instead of returning one of them. -/
theorem C4_alphabeta_depth0_error :
    GenerateLegalMoves NewGame NewGame.turn ≠ [] ∧
    alphaBetaNextMove 0 NewGame = Except.error "failed to find a move" := by
  constructor
  · decide
  · rfl

/-! ## C8: promotion handling of Silver and Pawn board moves -/

/-- An unpromoted Bottom Silver in the zone moving back out of it, and an
unpromoted Bottom Pawn one step short of the last rank. -/
def cx8 : GameState :=
  { board := boardOfList [(⟨2, 0⟩, ⟨.King, .Bottom, false, true⟩),
      (⟨2, 4⟩, ⟨.Silver, .Bottom, false, true⟩),
      (⟨0, 4⟩, ⟨.Pawn, .Bottom, false, true⟩)],
    hands := fun _ _ => none,
    turn := .Bottom }

/-- Two refutations of the stated promotion rule: the Silver leaving the
promotion zone gets no promoting variant (promotion is keyed to the
destination only), and the Pawn entering the last rank gets no non-promoting
variant (promotion is forced there, not merely offered). -/
theorem C8_counterexample :
    ((⟨some ⟨2, 4⟩, ⟨1, 3⟩, none, true⟩ : Move) ∉ GenerateLegalMoves cx8 .Bottom) ∧
    ((⟨some ⟨2, 4⟩, ⟨1, 3⟩, none, false⟩ : Move) ∈ GenerateLegalMoves cx8 .Bottom) ∧
    ((⟨some ⟨0, 4⟩, ⟨0, 5⟩, none, true⟩ : Move) ∈ GenerateLegalMoves cx8 .Bottom) ∧
    ((⟨some ⟨0, 4⟩, ⟨0, 5⟩, none, false⟩ : Move) ∉ GenerateLegalMoves cx8 .Bottom) := by
  decide

/-- C8 (amended): for every generated board move, a promoting variant exists
only when the moving piece is an unpromoted Silver or Pawn and the
destination rank lies in the owner's promotion zone (the source rank plays no
part, so moves leaving the zone never promote); and an unpromoted Pawn moving
to the final rank is always generated with promote = true — the non-promoting
variant is dropped by the reach filter, so promotion is forced there. -/
theorem C8_promotion_destination_only (s : GameState) (p : Player) (m : Move) (f : Coord)
    (hm : m ∈ GenerateLegalMoves s p) (hf : m.mfrom = some f) (hd : m.mdrop = none) :
    (m.promote = true →
      (getCell s.board f).promoted = false ∧
      ((getCell s.board f).kind = .Silver ∨ (getCell s.board f).kind = .Pawn) ∧
      (if p = .Bottom then 4 ≤ m.mto.y ∧ m.mto.y ≤ 5 else 0 ≤ m.mto.y ∧ m.mto.y ≤ 1)) ∧
    ((getCell s.board f).kind = .Pawn → (getCell s.board f).promoted = false →
      (if p = .Bottom then m.mto.y = 5 else m.mto.y = 0) → m.promote = true) := by
  rw [generateLegalMoves_eq] at hm
  rcases List.mem_append.mp hm with hm | hm
  · -- board-scan phase
    rw [mem_piecePhase] at hm
    obtain ⟨c, hc, hpres, hown, hmem⟩ := hm
    rw [mem_legalMovesForPiece] at hmem
    obtain ⟨delta, hdelta, promote, hmEq, hin, hdest, hpromOpt, hcand⟩ := hmem
    have hcf : c = f := by
      rw [hmEq] at hf
      exact Option.some.inj hf
    subst hcf
    have hto : m.mto = ⟨c.x + delta.x, c.y + delta.y⟩ := by rw [hmEq]
    have hpr : m.promote = promote := by rw [hmEq]
    constructor
    · intro hptrue
      rw [hpr] at hptrue
      subst hptrue
      by_cases hcp : canPromote (getCell s.board c) (c.y + delta.y) = true
      · unfold canPromote at hcp
        by_cases hpm : (getCell s.board c).promoted
        · rw [if_pos hpm] at hcp
          exact absurd hcp (by simp)
        · rw [if_neg hpm] at hcp
          refine ⟨by simpa using hpm, ?_, ?_⟩
          · by_cases hk : (getCell s.board c).kind ≠ .Silver ∧ (getCell s.board c).kind ≠ .Pawn
            · rw [if_pos hk] at hcp
              exact absurd hcp (by simp)
            · rcases not_and_or.mp hk with h | h
              · exact Or.inl (not_not.mp h)
              · exact Or.inr (not_not.mp h)
          · by_cases hk : (getCell s.board c).kind ≠ .Silver ∧ (getCell s.board c).kind ≠ .Pawn
            · rw [if_pos hk] at hcp
              exact absurd hcp (by simp)
            · rw [if_neg hk] at hcp
              simp only [Bool.and_eq_true, decide_eq_true_eq] at hcp
              rw [hto]
              rw [hown] at hcp
              cases p with
              | Bottom =>
                simp [promotionZoneFor, BoardRows] at hcp
                simp only [reduceIte]
                omega
              | Top =>
                simp [promotionZoneFor, BoardRows] at hcp
                simpa using hcp
      · rw [if_neg hcp] at hpromOpt
        simp at hpromOpt
    · intro hkind hunprom hy
      rw [hpr]
      by_contra hne
      have hpfalse : promote = false := by
        cases promote
        · rfl
        · exact absurd rfl hne
      subst hpfalse
      -- the reach filter rejects an unpromoted pawn on the last rank
      unfold candOK at hcand
      simp only [Bool.and_eq_true] at hcand
      have hreach := hcand.2
      rw [hmEq] at hreach
      simp only [boardApplyMove] at hreach
      rw [getCell_setCell_same] at hreach
      set piece := getCell s.board c with hpiece
      have hmovingOffsets : movementOffsets
          { piece with promoted := piece.promoted || false, present := true }
          = (if p = .Bottom then pawnOffsetsBottom else pawnOffsetsTop) := by
        rw [hunprom]
        unfold movementOffsets
        simp only [hkind, hown]
        rfl
      rw [pieceHasBoardReach, hmovingOffsets] at hreach
      have hyv : c.y + delta.y = (if p = .Bottom then (5 : Int) else 0) := by
        rw [hto] at hy
        cases p with
        | Bottom => simpa using hy
        | Top => simpa using hy
      cases p with
      | Bottom =>
        simp only [reduceIte] at hyv
        simp [pawnOffsetsBottom, insideBoard, BoardRows, BoardCols, hyv] at hreach
      | Top =>
        simp only [reduceIte] at hyv
        simp [pawnOffsetsTop, insideBoard, BoardRows, BoardCols, hyv] at hreach
  · -- drop phase produces only drops, excluded by hd
    simp only [List.mem_flatMap] at hm
    obtain ⟨k, _, hmem⟩ := hm
    rw [mem_legalDropsPure] at hmem
    obtain ⟨c, _, hmEq, _, _⟩ := hmem
    rw [hmEq] at hd
    simp at hd

theorem C8_witness :
    ((⟨some ⟨0, 4⟩, ⟨0, 5⟩, none, true⟩ : Move) ∈ GenerateLegalMoves cx8 .Bottom) ∧
    (⟨some ⟨0, 4⟩, ⟨0, 5⟩, none, true⟩ : Move).mfrom = some ⟨0, 4⟩ ∧
    ((⟨some ⟨0, 4⟩, ⟨0, 5⟩, none, true⟩ : Move).promote = true →
      (getCell cx8.board ⟨0, 4⟩).promoted = false ∧
      ((getCell cx8.board ⟨0, 4⟩).kind = .Silver ∨ (getCell cx8.board ⟨0, 4⟩).kind = .Pawn) ∧
      (if Player.Bottom = .Bottom then
        4 ≤ (⟨some ⟨0, 4⟩, ⟨0, 5⟩, none, true⟩ : Move).mto.y ∧
          (⟨some ⟨0, 4⟩, ⟨0, 5⟩, none, true⟩ : Move).mto.y ≤ 5
       else 0 ≤ (⟨some ⟨0, 4⟩, ⟨0, 5⟩, none, true⟩ : Move).mto.y ∧
          (⟨some ⟨0, 4⟩, ⟨0, 5⟩, none, true⟩ : Move).mto.y ≤ 1)) := by
  refine ⟨by decide, rfl, ?_⟩
  exact (C8_promotion_destination_only cx8 Player.Bottom _ ⟨0, 4⟩ (by decide) rfl rfl).1

end Gorogoro
